import Mathlib

/-!
# Verification of the `OpenPolymer` Liouvillian-construction engine

This file gives a shallow embedding, in Lean 4, of the operator-algebra core of
`ufss/vibronic_eigenstates/Lindblad_eigenstates.py` (class `OpenPolymer` and its
helpers), and proves or refutes the specified properties of that code.

Modelling conventions:
* numpy arrays of scalars are modelled as Lean functions/`Matrix` values; real
  (floating-point) scalars are modelled as real numbers `ℝ`, and functions that
  are generic in the scalar dtype are stated over a general `Field K` (with a
  `StarRing K` structure supplying complex conjugation, `np.conjugate`).
* the `n`-fold Kronecker product of 2x2 electronic factors is modelled over the
  index type `Fin n → Fin 2`: the flat basis index `b` of the numpy array
  corresponds to the big-endian binary digits of `b` (factor `0` is the most
  significant), and `np.kron` becomes an entrywise product over factors.
* python loops that accumulate a sum with `+=` are rendered as `Finset.sum` /
  `List` folds; python exceptions are rendered with `Except`.
* `scalar_CC` below is a computable field of complex numbers with rational
  components, used to evaluate the embedded definitions on concrete inputs by
  `decide`; the statements themselves are generic in the scalar field.
-/

/-- Computable complex scalars with rational real and imaginary components.
Used as a concrete scalar field on which the embedded numpy code can be
evaluated by `decide` (numpy's `complex` dtype, restricted to exactly
representable values). -/
structure CC where
  re : ℚ
  im : ℚ
deriving DecidableEq, Repr

@[ext] theorem CC.ext {x y : CC} (hre : x.re = y.re) (him : x.im = y.im) : x = y := by
  cases x; cases y; cases hre; cases him; rfl

instance : Zero CC := ⟨⟨0, 0⟩⟩

instance : One CC := ⟨⟨1, 0⟩⟩

instance : Add CC := ⟨fun x y => ⟨x.re + y.re, x.im + y.im⟩⟩

instance : Neg CC := ⟨fun x => ⟨-x.re, -x.im⟩⟩

instance : Mul CC := ⟨fun x y => ⟨x.re * y.re - x.im * y.im, x.re * y.im + x.im * y.re⟩⟩

instance : Inv CC := ⟨fun x => ⟨x.re / (x.re ^ 2 + x.im ^ 2), -x.im / (x.re ^ 2 + x.im ^ 2)⟩⟩

@[simp] theorem CC.zero_re : (0 : CC).re = 0 := rfl

@[simp] theorem CC.zero_im : (0 : CC).im = 0 := rfl

@[simp] theorem CC.one_re : (1 : CC).re = 1 := rfl

@[simp] theorem CC.one_im : (1 : CC).im = 0 := rfl

@[simp] theorem CC.add_re (x y : CC) : (x + y).re = x.re + y.re := rfl

@[simp] theorem CC.add_im (x y : CC) : (x + y).im = x.im + y.im := rfl

@[simp] theorem CC.neg_re (x : CC) : (-x).re = -x.re := rfl

@[simp] theorem CC.neg_im (x : CC) : (-x).im = -x.im := rfl

@[simp] theorem CC.mul_re (x y : CC) : (x * y).re = x.re * y.re - x.im * y.im := rfl

@[simp] theorem CC.mul_im (x y : CC) : (x * y).im = x.re * y.im + x.im * y.re := rfl

@[simp] theorem CC.inv_re (x : CC) : (x⁻¹).re = x.re / (x.re ^ 2 + x.im ^ 2) := rfl

@[simp] theorem CC.inv_im (x : CC) : (x⁻¹).im = -x.im / (x.re ^ 2 + x.im ^ 2) := rfl

instance instCommRingCC : CommRing CC where
  add_assoc a b c := by ext <;> simp <;> ring
  zero_add a := by ext <;> simp
  add_zero a := by ext <;> simp
  add_comm a b := by ext <;> simp <;> ring
  left_distrib a b c := by ext <;> simp <;> ring
  right_distrib a b c := by ext <;> simp <;> ring
  zero_mul a := by ext <;> simp
  mul_zero a := by ext <;> simp
  mul_assoc a b c := by ext <;> simp <;> ring
  one_mul a := by ext <;> simp
  mul_one a := by ext <;> simp
  mul_comm a b := by ext <;> simp <;> ring
  neg_add_cancel a := by ext <;> simp
  nsmul := nsmulRec
  zsmul := zsmulRec

theorem CC.sq_abs_ne_zero {x : CC} (hx : x ≠ 0) : x.re ^ 2 + x.im ^ 2 ≠ 0 := by
  have hre := sq_nonneg x.re
  have him := sq_nonneg x.im
  rcases (by by_contra hc; push_neg at hc; exact hx (CC.ext hc.1 hc.2) :
      x.re ≠ 0 ∨ x.im ≠ 0) with h | h
  · have hpos : 0 < x.re ^ 2 := lt_of_le_of_ne hre (Ne.symm (pow_ne_zero 2 h))
    intro hcontra; linarith
  · have hpos : 0 < x.im ^ 2 := lt_of_le_of_ne him (Ne.symm (pow_ne_zero 2 h))
    intro hcontra; linarith

instance instFieldCC : Field CC where
  exists_pair_ne := ⟨0, 1, by decide⟩
  mul_inv_cancel x hx := by
    have hd := CC.sq_abs_ne_zero hx
    ext <;> simp <;> field_simp <;> ring
  inv_zero := by ext <;> simp
  nnqsmul := _
  qsmul := _

instance : StarRing CC where
  star x := ⟨x.re, -x.im⟩
  star_involutive x := by ext <;> simp
  star_mul x y := by ext <;> simp <;> ring
  star_add x y := by ext <;> simp <;> ring

@[simp] theorem CC.star_re (x : CC) : (star x).re = x.re := rfl

@[simp] theorem CC.star_im (x : CC) : (star x).im = -x.im := rfl

/-- The imaginary unit of `CC` (numpy's `1j`). -/
def CC.I : CC := ⟨0, 1⟩

/-! ## Dissipator Library: `make_Lindblad_instructions` and `make_Liouvillian`

Source: `Lindblad_eigenstates.py`, lines 365-372 and 413-419. -/

/-- Embedding of the static method `make_Lindblad_instructions(gamma, O)`:
`II = np.eye(O.shape[0])`, `Od = np.conjugate(O.T)`,
`leftright = gamma * (-np.dot(Od, O) / 2)`, returning
`[(gamma*O, Od), (leftright, II), (II, leftright)]`.  Scalar multiplication and
the division by `2` act entrywise, as numpy broadcasting does. -/
def make_Lindblad_instructions {ι : Type} {K : Type} [Field K] [StarRing K]
    [Fintype ι] [DecidableEq ι] (gamma : K) (O : Matrix ι ι K) :
    List (Matrix ι ι K × Matrix ι ι K) :=
  let II : Matrix ι ι K := 1
  let Od : Matrix ι ι K := O.conjTranspose
  let leftright : Matrix ι ι K := Matrix.of fun i j => gamma * (-((Od * O) i j) / 2)
  [(Matrix.of fun i j => gamma * O i j, Od), (leftright, II), (II, leftright)]

/-- Modelled from the spec (claim C1 wording): the three instruction pairs
`(γO, Oᵀ)`, `(−γOᵀO/2, I)`, `(I, −γOᵀO/2)` with the plain (non-conjugated)
transpose `Oᵀ`.  This is the comparison definition for the refinement claim;
the source uses `np.conjugate(O.T)` instead. -/
def spec_Lindblad_instructions {ι : Type} {K : Type} [Field K] [StarRing K]
    [Fintype ι] [DecidableEq ι] (gamma : K) (O : Matrix ι ι K) :
    List (Matrix ι ι K × Matrix ι ι K) :=
  let II : Matrix ι ι K := 1
  let anticommHalf : Matrix ι ι K := -((gamma / 2) • (O.transpose * O))
  [(gamma • O, O.transpose), (anticommHalf, II), (II, anticommHalf)]

/-- Embedding of the static method `make_Liouvillian(instruction_list)`:
`L = kron(left, right.T)` for the first instruction, then `+=` over the rest.
(The source raises `IndexError` on an empty list; it is always called with a
nonempty one.  We return `0` in that unreachable case.) -/
def make_Liouvillian {ι : Type} {K : Type} [Field K] [Fintype ι]
    (instruction_list : List (Matrix ι ι K × Matrix ι ι K)) :
    Matrix (ι × ι) (ι × ι) K :=
  match instruction_list with
  | [] => 0
  | p :: rest =>
      rest.foldl (fun L q => L + Matrix.kronecker q.1 q.2.transpose)
        (Matrix.kronecker p.1 p.2.transpose)

/-- `rho.flatten()`: the row-major vectorization of a matrix; flat index
`i*n + j` of the numpy vector corresponds to the pair index `(i, j)`. -/
def np_flatten {ι : Type} {K : Type} (rho : Matrix ι ι K) : ι × ι → K :=
  fun p => rho p.1 p.2

/-- The trace of `w.reshape(n, n)` for a row-major vectorized matrix `w`. -/
def reshape_trace {ι : Type} {K : Type} [Fintype ι] [AddCommMonoid K]
    (w : ι × ι → K) : K := ∑ i, w (i, i)

/-- The vectorization identity `vec(A·rho·B) = kron(A, Bᵀ)·vec(rho)` for the
row-major flattening convention used throughout the source. -/
theorem kron_mulVec_flatten {ι : Type} {K : Type} [Field K] [Fintype ι]
    (A B rho : Matrix ι ι K) :
    (Matrix.kronecker A B.transpose).mulVec (np_flatten rho) =
      np_flatten (A * rho * B) := by
  funext p
  obtain ⟨i, j⟩ := p
  simp only [Matrix.mulVec, Matrix.dotProduct, np_flatten, Matrix.kronecker,
    Matrix.kroneckerMap_apply, Matrix.transpose_apply, Matrix.mul_apply,
    Fintype.sum_prod_type]
  rw [Finset.sum_comm]
  refine Finset.sum_congr rfl fun l _ => ?_
  rw [Finset.sum_mul]
  refine Finset.sum_congr rfl fun k _ => ?_
  ring

/-- The reshaped trace of `kron(A, Bᵀ)` applied to `vec(rho)` is
`trace(A·rho·B)`. -/
theorem reshape_trace_kron {ι : Type} {K : Type} [Field K] [Fintype ι]
    (A B rho : Matrix ι ι K) :
    reshape_trace ((Matrix.kronecker A B.transpose).mulVec (np_flatten rho)) =
      Matrix.trace (A * rho * B) := by
  rw [kron_mulVec_flatten]
  rfl

/-- The instruction triple produced by `make_Lindblad_instructions`, written
with matrix-level operations: the right factor of the decay term is the
conjugate transpose `O†`, and the anticommutator halves are
`−(γ/2)·O†O`. -/
theorem make_Lindblad_instructions_eq {ι : Type} {K : Type} [Field K]
    [StarRing K] [Fintype ι] [DecidableEq ι] (gamma : K) (O : Matrix ι ι K) :
    make_Lindblad_instructions gamma O =
      [(gamma • O, O.conjTranspose),
       (-((gamma / 2) • (O.conjTranspose * O)), 1),
       (1, -((gamma / 2) • (O.conjTranspose * O)))] := by
  have h1 : (Matrix.of fun i j => gamma * O i j) = gamma • O := by
    ext i j; simp
  have h2 : (Matrix.of fun i j => gamma * (-((O.conjTranspose * O) i j) / 2)) =
      -((gamma / 2) • (O.conjTranspose * O)) := by
    ext i j; simp; ring
  simp only [make_Lindblad_instructions, h1, h2]

/-- The operator used in the counterexample to claim C1: the 1x1 matrix whose
single entry is the imaginary unit. -/
def C1_ctr_O : Matrix (Fin 1) (Fin 1) CC := Matrix.of fun _ _ => CC.I

/-- Claim C1 is false as stated: for the rate `1` and the (complex) operator
`O = [[1j]]`, the instructions returned by `make_Lindblad_instructions` differ
from the claimed triple `(γO, Oᵀ), (−γOᵀO/2, I), (I, −γOᵀO/2)`, because the
source uses the conjugate transpose `np.conjugate(O.T)`, not `O.T`. -/
theorem C1_counterexample :
    make_Lindblad_instructions (1 : CC) C1_ctr_O ≠
      spec_Lindblad_instructions (1 : CC) C1_ctr_O := by
  intro h
  simp only [make_Lindblad_instructions, spec_Lindblad_instructions,
    List.cons.injEq, Prod.mk.injEq] at h
  have h00 := congrArg (fun M : Matrix (Fin 1) (Fin 1) CC => (M 0 0).im) h.1.2
  simp [C1_ctr_O, CC.I, Matrix.conjTranspose_apply, Matrix.transpose_apply]
    at h00
  exact absurd h00 (by norm_num)

/-- Claim C1 (amended): `make_Lindblad_instructions(gamma, O)` returns exactly
the three instruction pairs `(γO, O†), (−γO†O/2, I), (I, −γO†O/2)`, in that
order, where `O†` is the conjugate transpose of `O` and `I` is the identity of
the same dimension as `O`. -/
theorem C1_make_Lindblad_instructions_amended {ι : Type} {K : Type} [Field K]
    [StarRing K] [Fintype ι] [DecidableEq ι] (gamma : K) (O : Matrix ι ι K) :
    make_Lindblad_instructions gamma O =
      [(gamma • O, O.conjTranspose),
       (-((gamma / 2) • (O.conjTranspose * O)), 1),
       (1, -((gamma / 2) • (O.conjTranspose * O)))] :=
  make_Lindblad_instructions_eq gamma O

/-- Claim C2: the superoperator assembled by `make_Liouvillian` from the three
instructions of `make_Lindblad_instructions(gamma, O)`, applied to the
row-major vectorization of any matrix `rho`, yields a vector whose reshaped
matrix has trace exactly `0` (trace preservation of the Lindblad dissipator).
Stated over any scalar field of characteristic different from `2` (numpy's
real and complex dtypes are modelled by such fields). -/
theorem C2_Lindblad_dissipator_preserves_trace {ι : Type} {K : Type} [Field K]
    [StarRing K] [Fintype ι] [DecidableEq ι] (h2 : (2 : K) ≠ 0) (gamma : K)
    (O rho : Matrix ι ι K) :
    reshape_trace
      ((make_Liouvillian (make_Lindblad_instructions gamma O)).mulVec
        (np_flatten rho)) = 0 := by
  rw [make_Lindblad_instructions_eq]
  have hL : make_Liouvillian
      [(gamma • O, O.conjTranspose),
       (-((gamma / 2) • (O.conjTranspose * O)), 1),
       (1, -((gamma / 2) • (O.conjTranspose * O)))] =
      Matrix.kronecker (gamma • O) O.conjTranspose.transpose +
        Matrix.kronecker (-((gamma / 2) • (O.conjTranspose * O)))
          (1 : Matrix ι ι K).transpose +
        Matrix.kronecker (1 : Matrix ι ι K)
          (-((gamma / 2) • (O.conjTranspose * O))).transpose := by
    simp [make_Liouvillian]
  rw [hL, Matrix.add_mulVec, Matrix.add_mulVec]
  have htr : ∀ u v : ι × ι → K,
      reshape_trace (u + v) = reshape_trace u + reshape_trace v := by
    intro u v
    simp [reshape_trace, Finset.sum_add_distrib]
  rw [htr, htr, reshape_trace_kron, reshape_trace_kron, reshape_trace_kron]
  have key : Matrix.trace (O * rho * O.conjTranspose) =
      Matrix.trace (O.conjTranspose * O * rho) := by
    rw [Matrix.trace_mul_comm (O * rho) O.conjTranspose, Matrix.mul_assoc]
  have hc : Matrix.trace (rho * (O.conjTranspose * O)) =
      Matrix.trace (O.conjTranspose * O * rho) :=
    Matrix.trace_mul_comm rho (O.conjTranspose * O)
  simp only [Matrix.smul_mul, Matrix.mul_smul, Matrix.neg_mul, Matrix.mul_neg,
    Matrix.mul_one, Matrix.one_mul, Matrix.trace_smul, Matrix.trace_neg,
    smul_eq_mul]
  rw [key, hc]
  field_simp
  ring

/-- Witness for claim C2 at a concrete input (scalar field `ℚ`, with its
trivial star operation, rate `3`, a generic `2x2` operator and state). -/
theorem C2_witness :
    reshape_trace
      ((make_Liouvillian
          (make_Lindblad_instructions (3 : ℚ)
            (!![1, 2; 3, 4] : Matrix (Fin 2) (Fin 2) ℚ))).mulVec
        (np_flatten (!![5, 6; 7, 8] : Matrix (Fin 2) (Fin 2) ℚ))) = 0 :=
  C2_Lindblad_dissipator_preserves_trace (by norm_num) 3 !![1, 2; 3, 4]
    !![5, 6; 7, 8]

/-! ## Dissipator Library: detailed-balance Boltzmann factors

Source: `Lindblad_eigenstates.py`, lines 249-270 (`boltzmann_factors` and
`boltzmann_factors_ordered_inputs`).  Floating-point scalars are modelled as
real numbers; `np.exp` is `Real.exp`. -/

/-- numpy's `np.isclose(a, b)` with the default tolerances
`rtol = 1e-5`, `atol = 1e-8`: `|a - b| <= atol + rtol * |b|`. -/
def np_isclose (a b : ℝ) : Prop := |a - b| ≤ 1e-8 + 1e-5 * |b|

noncomputable instance (a b : ℝ) : Decidable (np_isclose a b) :=
  Real.decidableLE _ _

/-- Embedding of `boltzmann_factors_ordered_inputs(E1, E2)` (the docstring
requires `E1 < E2`; `kT` is the attribute `self.kT`): if `kT == 0` return
`(1, 0)`; else with `Z = exp(-E1/kT) + exp(-E2/kT)`, if `np.isclose(Z, 0)`
return `(1, 0)`, otherwise `(exp(-E1/kT)/Z, exp(-E2/kT)/Z)`;
the local variable `Z` is inlined. -/
noncomputable def boltzmann_factors_ordered_inputs (kT E1 E2 : ℝ) : ℝ × ℝ :=
  if kT = 0 then (1, 0)
  else if np_isclose (Real.exp (-E1 / kT) + Real.exp (-E2 / kT)) 0 then (1, 0)
  else (Real.exp (-E1 / kT) / (Real.exp (-E1 / kT) + Real.exp (-E2 / kT)),
        Real.exp (-E2 / kT) / (Real.exp (-E1 / kT) + Real.exp (-E2 / kT)))

/-- Embedding of `boltzmann_factors(E1, E2)`: equal energies give
`(0.5, 0.5)`; for `E1 < E2` delegate to the ordered version; otherwise
delegate with the arguments swapped and swap the returned components. -/
noncomputable def boltzmann_factors (kT E1 E2 : ℝ) : ℝ × ℝ :=
  if E1 = E2 then (0.5, 0.5)
  else if E1 < E2 then boltzmann_factors_ordered_inputs kT E1 E2
  else
    let p := boltzmann_factors_ordered_inputs kT E2 E1
    (p.2, p.1)

/-- Claim C3: `boltzmann_factors(E, E) = (0.5, 0.5)`; `boltzmann_factors` is
componentwise-swap symmetric in its energy arguments; for `E1 < E2` the
zero-temperature case `kT = 0` (and likewise the guarded case where the
partition function `Z` is within numpy's `isclose` tolerance of `0`) returns
`(1, 0)`; and for `kT > 0` (with `Z` not close to `0`) it returns
`(exp(-E1/kT)/Z, exp(-E2/kT)/Z)` with `Z = exp(-E1/kT) + exp(-E2/kT)`. -/
theorem C3_boltzmann_factors_properties :
    (∀ kT E : ℝ, boltzmann_factors kT E E = (0.5, 0.5)) ∧
    (∀ kT E1 E2 : ℝ, boltzmann_factors kT E1 E2 =
        ((boltzmann_factors kT E2 E1).2, (boltzmann_factors kT E2 E1).1)) ∧
    (∀ kT E1 E2 : ℝ, E1 < E2 → kT = 0 →
        boltzmann_factors kT E1 E2 = (1, 0)) ∧
    (∀ kT E1 E2 : ℝ, E1 < E2 → kT ≠ 0 →
        np_isclose (Real.exp (-E1 / kT) + Real.exp (-E2 / kT)) 0 →
        boltzmann_factors kT E1 E2 = (1, 0)) ∧
    (∀ kT E1 E2 : ℝ, E1 < E2 → 0 < kT →
        ¬ np_isclose (Real.exp (-E1 / kT) + Real.exp (-E2 / kT)) 0 →
        boltzmann_factors kT E1 E2 =
          (Real.exp (-E1 / kT) /
             (Real.exp (-E1 / kT) + Real.exp (-E2 / kT)),
           Real.exp (-E2 / kT) /
             (Real.exp (-E1 / kT) + Real.exp (-E2 / kT)))) := by
  refine ⟨?_, ?_, ?_, ?_, ?_⟩
  · intro kT E
    simp [boltzmann_factors]
  · intro kT E1 E2
    rcases lt_trichotomy E1 E2 with h | h | h
    · rw [boltzmann_factors, if_neg (ne_of_lt h), if_pos h,
        boltzmann_factors, if_neg (ne_of_gt h), if_neg (not_lt.mpr (le_of_lt h))]
    · subst h
      simp [boltzmann_factors]
    · rw [boltzmann_factors, if_neg (ne_of_gt h), if_neg (not_lt.mpr (le_of_lt h)),
        boltzmann_factors, if_neg (ne_of_lt h), if_pos h]
  · intro kT E1 E2 hlt hkT
    rw [boltzmann_factors, if_neg (ne_of_lt hlt), if_pos hlt,
      boltzmann_factors_ordered_inputs, if_pos hkT]
  · intro kT E1 E2 hlt hkT hclose
    rw [boltzmann_factors, if_neg (ne_of_lt hlt), if_pos hlt,
      boltzmann_factors_ordered_inputs, if_neg hkT, if_pos hclose]
  · intro kT E1 E2 hlt hkT hfar
    rw [boltzmann_factors, if_neg (ne_of_lt hlt), if_pos hlt,
      boltzmann_factors_ordered_inputs, if_neg (ne_of_gt hkT), if_neg hfar]

/-- Witness for claim C3: each conjunct of
`C3_boltzmann_factors_properties` instantiated at concrete energies and
temperatures, with all hypotheses discharged. -/
theorem C3_witness :
    boltzmann_factors 1 5 5 = (0.5, 0.5) ∧
    boltzmann_factors 1 2 3 =
      ((boltzmann_factors 1 3 2).2, (boltzmann_factors 1 3 2).1) ∧
    boltzmann_factors 0 1 2 = (1, 0) ∧
    boltzmann_factors 1 25 26 = (1, 0) ∧
    boltzmann_factors 1 0 1 =
      (Real.exp (-0 / 1) / (Real.exp (-0 / 1) + Real.exp (-1 / 1)),
       Real.exp (-1 / 1) / (Real.exp (-0 / 1) + Real.exp (-1 / 1))) := by
  obtain ⟨h1, h2, h3, h4, h5⟩ := C3_boltzmann_factors_properties
  have hexp25 : (2.7182818283 : ℝ) ^ (25 : ℕ) ≤ Real.exp 25 := by
    have h := Real.exp_nat_mul (1 : ℝ) 25
    have hb : (2.7182818283 : ℝ) ^ (25 : ℕ) ≤ Real.exp 1 ^ (25 : ℕ) :=
      pow_le_pow_left (by norm_num) (le_of_lt Real.exp_one_gt_d9) 25
    calc (2.7182818283 : ℝ) ^ (25 : ℕ) ≤ Real.exp 1 ^ (25 : ℕ) := hb
      _ = Real.exp ((25 : ℕ) * 1) := (Real.exp_nat_mul 1 25).symm
      _ = Real.exp 25 := by norm_num
  have hclose : np_isclose (Real.exp (-25 / 1) + Real.exp (-26 / 1)) 0 := by
    rw [np_isclose, sub_zero,
      abs_of_pos (by positivity), abs_zero]
    have h1' : Real.exp (-25 / 1 : ℝ) = (Real.exp 25)⁻¹ := by
      rw [show ((-25 : ℝ) / 1) = -(25 : ℝ) by norm_num, Real.exp_neg]
    have h2' : Real.exp (-26 / 1 : ℝ) ≤ Real.exp (-25 / 1 : ℝ) :=
      Real.exp_le_exp.mpr (by norm_num)
    have h3' : (Real.exp 25)⁻¹ ≤ ((2.7182818283 : ℝ) ^ (25 : ℕ))⁻¹ :=
      inv_le_inv_of_le (by positivity) hexp25
    have h4' : ((2.7182818283 : ℝ) ^ (25 : ℕ))⁻¹ ≤ 5e-9 := by
      rw [inv_le_iff_one_le_mul₀ (by positivity)]
      norm_num
    linarith
  have hfar : ¬ np_isclose (Real.exp (-0 / 1) + Real.exp (-1 / 1)) 0 := by
    intro hcl
    rw [np_isclose, sub_zero, abs_of_pos (by positivity), abs_zero] at hcl
    have h0 : Real.exp (-0 / 1 : ℝ) = 1 := by
      rw [show ((-0 : ℝ) / 1) = 0 by norm_num, Real.exp_zero]
    have hp : 0 < Real.exp (-1 / 1 : ℝ) := Real.exp_pos _
    rw [h0] at hcl
    norm_num at hcl
    linarith
  exact ⟨h1 1 5, h2 1 2 3, h3 0 1 2 (by norm_num) rfl,
    h4 1 25 26 (by norm_num) (by norm_num) hclose,
    h5 1 0 1 (by norm_num) (by norm_num) hfar⟩

/-! ## Electronic occupation numbers and manifold masks

Source: `Lindblad_eigenstates.py`, lines 91-115
(`electronic_vector_of_ones_kron`, `set_electronic_total_occupation_number`,
`electronic_manifold_mask`).  The 1-D numpy arrays involved hold only small
nonnegative integers, and are modelled as `List ℕ`. -/

/-- `np.kron` of two 1-D arrays. -/
def vec_kron (u v : List ℕ) : List ℕ :=
  u.bind fun x => v.map fun y => x * y

theorem vec_kron_length (u v : List ℕ) :
    (vec_kron u v).length = u.length * v.length := by
  induction u with
  | nil => simp [vec_kron]
  | cons a t ih => simp [vec_kron] at ih ⊢; simp [ih]; ring

theorem mem_vec_kron {u v : List ℕ} {x : ℕ} :
    x ∈ vec_kron u v ↔ ∃ a ∈ u, ∃ b ∈ v, a * b = x := by
  simp [vec_kron]

theorem foldl_vec_kron_length (L : List (List ℕ)) (acc : List ℕ) :
    (L.foldl vec_kron acc).length = acc.length * (L.map List.length).prod := by
  induction L generalizing acc with
  | nil => simp
  | cons h t ih => simp [ih, vec_kron_length]; ring

theorem foldl_vec_kron_le_one (L : List (List ℕ)) (acc : List ℕ)
    (hacc : ∀ x ∈ acc, x ≤ 1) (hL : ∀ l ∈ L, ∀ x ∈ l, x ≤ 1) :
    ∀ z ∈ L.foldl vec_kron acc, z ≤ 1 := by
  induction L generalizing acc with
  | nil => simpa using hacc
  | cons h t ih =>
    intro z hz
    refine ih (vec_kron acc h) ?_ (fun l hl => hL l (List.mem_cons_of_mem _ hl)) z hz
    intro x hx
    obtain ⟨a, ha, b, hb, rfl⟩ := mem_vec_kron.mp hx
    calc a * b ≤ 1 * 1 :=
          Nat.mul_le_mul (hacc a ha) (hL h (List.mem_cons_self h t) b hb)
      _ = 1 := by norm_num

/-- Embedding of `electronic_vector_of_ones_kron(position, item)`: build
`n - 1` ones-vectors `np.ones(2)`, insert `item` at index `position`
(`list.insert`), then `np.kron` them together left to right.  (The positions
actually used always satisfy `position ≤ n - 1`, where python's `insert` and
`List.insertIdx` agree.) -/
def electronic_vector_of_ones_kron (n position : ℕ) (item : List ℕ) :
    List ℕ :=
  match (List.replicate (n - 1) [1, 1]).insertIdx position item with
  | [] => []
  | v :: rest => rest.foldl vec_kron v

/-- Embedding of `set_electronic_total_occupation_number`: elementwise sum,
over sites `0..n-1`, of the kron-embedded single-mode occupation vector
`np.arange(2) = [0, 1]`. -/
def electronic_total_occupation_number (n : ℕ) : List ℕ :=
  (List.range (n - 1)).foldl
    (fun acc i =>
      List.zipWith (· + ·) acc (electronic_vector_of_ones_kron n (i + 1) [0, 1]))
    (electronic_vector_of_ones_kron n 0 [0, 1])

/-- Embedding of `electronic_manifold_mask(manifold_num)`:
`np.where(electronic_total_occupation_number == manifold_num)[0]`, the
ascending list of basis indices with the given total occupation. -/
def electronic_manifold_mask (n manifold_num : ℕ) : List ℕ :=
  (((electronic_total_occupation_number n).enum.filter
    (fun p => decide (p.2 = manifold_num))).map Prod.fst)

theorem ones_kron_list_length {n position : ℕ} (hp : position ≤ n - 1) :
    ((List.replicate (n - 1) [1, 1]).insertIdx position [0, 1]).length =
      (n - 1) + 1 := by
  rw [List.length_insertIdx _ _ (by simpa using hp), List.length_replicate]

theorem ones_kron_list_mem {n position : ℕ} (hp : position ≤ n - 1)
    {l : List ℕ}
    (hl : l ∈ (List.replicate (n - 1) [1, 1]).insertIdx position [0, 1]) :
    l = [0, 1] ∨ l = [1, 1] := by
  rcases (List.mem_insertIdx (by simpa using hp)).mp hl with h | h
  · exact Or.inl h
  · exact Or.inr (List.eq_of_mem_replicate h)

theorem electronic_vector_of_ones_kron_length {n position : ℕ} (hn : 1 ≤ n)
    (hp : position ≤ n - 1) :
    (electronic_vector_of_ones_kron n position [0, 1]).length = 2 ^ n := by
  rw [electronic_vector_of_ones_kron]
  rcases hil : (List.replicate (n - 1) [1, 1]).insertIdx position [0, 1] with
    _ | ⟨v, rest⟩
  · exact absurd (hil ▸ ones_kron_list_length hp) (by simp)
  · have hlen : rest.length = n - 1 := by
      have := hil ▸ ones_kron_list_length hp
      simpa using this
    have hv : v.length = 2 := by
      rcases ones_kron_list_mem hp (hil ▸ List.mem_cons_self v rest) with h | h <;>
        simp [h]
    have hrest : ∀ l ∈ rest, List.length l = 2 := by
      intro l hl
      rcases ones_kron_list_mem hp (hil ▸ List.mem_cons_of_mem v hl) with h | h <;>
        simp [h]
    rw [foldl_vec_kron_length, hv,
      List.prod_eq_pow_card (rest.map List.length) 2 (by simpa using hrest),
      List.length_map, hlen]
    have : n - 1 + 1 = n := Nat.succ_pred_eq_of_pos hn
    rw [← pow_succ' 2 (n - 1), this]

theorem electronic_vector_of_ones_kron_le_one {n position : ℕ}
    (hp : position ≤ n - 1) :
    ∀ x ∈ electronic_vector_of_ones_kron n position [0, 1], x ≤ 1 := by
  rw [electronic_vector_of_ones_kron]
  rcases hil : (List.replicate (n - 1) [1, 1]).insertIdx position [0, 1] with
    _ | ⟨v, rest⟩
  · simp
  · refine foldl_vec_kron_le_one rest v ?_ ?_
    · intro x hx
      rcases ones_kron_list_mem hp (hil ▸ List.mem_cons_self v rest) with h | h <;>
        (subst h; simp at hx; omega)
    · intro l hl x hx
      rcases ones_kron_list_mem hp (hil ▸ List.mem_cons_of_mem v hl) with h | h <;>
        (subst h; simp at hx; omega)

theorem foldl_zipWith_add_prop (L : ℕ) (f : ℕ → List ℕ) (idxs : List ℕ)
    (acc : List ℕ) (c : ℕ) (haccL : acc.length = L)
    (haccB : ∀ x ∈ acc, x ≤ c) (hfL : ∀ i ∈ idxs, (f i).length = L)
    (hfB : ∀ i ∈ idxs, ∀ x ∈ f i, x ≤ 1) :
    (idxs.foldl (fun a i => List.zipWith (· + ·) a (f i)) acc).length = L ∧
      ∀ x ∈ idxs.foldl (fun a i => List.zipWith (· + ·) a (f i)) acc,
        x ≤ c + idxs.length := by
  induction idxs generalizing acc c with
  | nil => simpa using ⟨haccL, haccB⟩
  | cons i t ih =>
    have hzl : (List.zipWith (· + ·) acc (f i)).length = L := by
      rw [List.length_zipWith, haccL, hfL i (List.mem_cons_self i t)]
      exact min_self L
    have hzb : ∀ x ∈ List.zipWith (· + ·) acc (f i), x ≤ c + 1 := by
      intro x hx
      obtain ⟨j, hj, hval⟩ := List.mem_iff_getElem.mp hx
      rw [List.getElem_zipWith] at hval
      subst hval
      exact Nat.add_le_add (haccB _ (List.getElem_mem _))
        (hfB i (List.mem_cons_self i t) _ (List.getElem_mem _))
    obtain ⟨h1, h2⟩ := ih (List.zipWith (· + ·) acc (f i)) (c + 1) hzl hzb
      (fun j hj => hfL j (List.mem_cons_of_mem i hj))
      (fun j hj => hfB j (List.mem_cons_of_mem i hj))
    refine ⟨h1, fun x hx => ?_⟩
    have := h2 x hx
    simpa [Nat.add_comm, Nat.add_assoc, Nat.add_left_comm] using this

theorem electronic_total_occupation_number_length {n : ℕ} (hn : 1 ≤ n) :
    (electronic_total_occupation_number n).length = 2 ^ n := by
  refine (foldl_zipWith_add_prop (2 ^ n)
    (fun i => electronic_vector_of_ones_kron n (i + 1) [0, 1])
    (List.range (n - 1)) (electronic_vector_of_ones_kron n 0 [0, 1]) 1
    (electronic_vector_of_ones_kron_length hn (Nat.zero_le _))
    (electronic_vector_of_ones_kron_le_one (Nat.zero_le _))
    (fun i hi => electronic_vector_of_ones_kron_length hn ?_)
    (fun i hi => electronic_vector_of_ones_kron_le_one ?_)).1 <;>
  · have := List.mem_range.mp hi
    omega

theorem electronic_total_occupation_number_le {n : ℕ} (hn : 1 ≤ n) :
    ∀ x ∈ electronic_total_occupation_number n, x ≤ n := by
  intro x hx
  have h := (foldl_zipWith_add_prop (2 ^ n)
    (fun i => electronic_vector_of_ones_kron n (i + 1) [0, 1])
    (List.range (n - 1)) (electronic_vector_of_ones_kron n 0 [0, 1]) 1
    (electronic_vector_of_ones_kron_length hn (Nat.zero_le _))
    (electronic_vector_of_ones_kron_le_one (Nat.zero_le _))
    (fun i hi => electronic_vector_of_ones_kron_length hn
      (by have := List.mem_range.mp hi; omega))
    (fun i hi => electronic_vector_of_ones_kron_le_one
      (by have := List.mem_range.mp hi; omega))).2 x hx
  rw [List.length_range] at h
  omega

theorem mem_electronic_manifold_mask {n m b : ℕ} :
    b ∈ electronic_manifold_mask n m ↔
      ∃ h : b < (electronic_total_occupation_number n).length,
        (electronic_total_occupation_number n).get ⟨b, h⟩ = m := by
  constructor
  · intro hb
    obtain ⟨p, hp, hfst⟩ := List.mem_map.mp hb
    obtain ⟨hpe, hpd⟩ := List.mem_filter.mp hp
    have hval : (electronic_total_occupation_number n)[p.1]? = some p.2 := by
      have := List.mk_mem_enum_iff_getElem?.mp (by
        simpa [Prod.mk.eta] using hpe)
      exact this
    obtain ⟨hlt, hget⟩ := List.getElem?_eq_some.mp hval
    subst hfst
    refine ⟨hlt, ?_⟩
    rw [List.get_eq_getElem, hget]
    exact of_decide_eq_true hpd
  · rintro ⟨h, hget⟩
    refine List.mem_map.mpr ⟨(b, m), List.mem_filter.mpr ⟨?_, by simp⟩, rfl⟩
    exact List.mk_mem_enum_iff_getElem?.mpr
      (List.getElem?_eq_some.mpr ⟨h, by simpa [List.get_eq_getElem] using hget⟩)

/-- Claim C4: for every number of sites `n ≥ 1`, the electronic manifold
masks partition the basis: every basis index `b < 2^n` lies in the mask of
exactly one manifold number `m ≤ n`; and for `n = 2` sites the masks of
manifolds `0, 1, 2` have sizes `1, 2, 1`. -/
theorem C4_manifold_masks_partition :
    (∀ n : ℕ, 1 ≤ n → ∀ b : ℕ, b < 2 ^ n →
      ∃! m : ℕ, m ≤ n ∧ b ∈ electronic_manifold_mask n m) ∧
    (electronic_manifold_mask 2 0).length = 1 ∧
    (electronic_manifold_mask 2 1).length = 2 ∧
    (electronic_manifold_mask 2 2).length = 1 := by
  refine ⟨?_, by decide, by decide, by decide⟩
  intro n hn b hb
  have hlen := electronic_total_occupation_number_length hn
  have hb' : b < (electronic_total_occupation_number n).length := by
    rw [hlen]; exact hb
  refine ⟨(electronic_total_occupation_number n).get ⟨b, hb'⟩, ⟨?_, ?_⟩, ?_⟩
  · exact electronic_total_occupation_number_le hn _ (List.get_mem _ _ _)
  · exact mem_electronic_manifold_mask.mpr ⟨hb', rfl⟩
  · rintro m ⟨hmle, hmmem⟩
    obtain ⟨h, hget⟩ := mem_electronic_manifold_mask.mp hmmem
    exact hget.symm

/-- Witness for claim C4: the partition statement instantiated at `n = 2`,
`b = 2`: manifold `1` is the unique manifold containing basis index `2`. -/
theorem C4_witness :
    ∃! m : ℕ, m ≤ 2 ∧ (2 : ℕ) ∈ electronic_manifold_mask 2 m :=
  C4_manifold_masks_partition.1 2 (by norm_num) 2 (by norm_num)

/-! ## Electronic Subsystem Model: local operators and Kronecker assembly

Source: `Lindblad_eigenstates.py`, lines 34-55 (local `2x2` operators built
in `__init__`), 168-208 (`electronic_identity_kron`, `recursive_kron`,
`make_single_operator_list`, `make_multi_operator_list`) and 225-226
(`set_exchange_list`).

The full electronic space of `n` two-level sites is indexed by occupation
functions `s : Fin n → Fin 2`; the flat numpy index is the big-endian binary
number with digits `s 0, s 1, ..., s (n-1)`, and `recursive_kron` of the `n`
local matrices becomes the entrywise product over factor positions. -/

/-- `self.up`: `up[1,0] = 1` (raises one site: maps basis state 0 to 1). -/
def up_op (K : Type) [Field K] : Matrix (Fin 2) (Fin 2) K := !![0, 0; 1, 0]

/-- `self.down`: `down[0,1] = 1` (lowers one site). -/
def down_op (K : Type) [Field K] : Matrix (Fin 2) (Fin 2) K := !![0, 1; 0, 0]

/-- `self.occupied`: `occupied[1,1] = 1` (projector on the excited state). -/
def occupied_op (K : Type) [Field K] : Matrix (Fin 2) (Fin 2) K := !![0, 0; 0, 1]

/-- `self.empty`: `empty[0,0] = 1` (projector on the ground state). -/
def empty_op (K : Type) [Field K] : Matrix (Fin 2) (Fin 2) K := !![1, 0; 0, 0]

/-- `self.sz`: `np.array([[0,0],[0,1]])`. -/
def sz_op (K : Type) [Field K] : Matrix (Fin 2) (Fin 2) K := !![0, 0; 0, 1]

/-- Python exceptions raised by the source (`ValueError`), together with the
`DimensionError` named by the spec (which does not exist in the source). -/
inductive PyError where
  | valueError : String → PyError
  | dimensionError : String → PyError
deriving DecidableEq, Repr

/-- The list `matrix_list` built inside `electronic_identity_kron`:
`[self.ii] * num_sites`, then `matrix_list[pos] = el` for each
`(el, pos)` of `element_list`. -/
def electronic_matrix_list (K : Type) [Field K] (n : ℕ)
    (element_list : List (Matrix (Fin 2) (Fin 2) K × ℕ)) :
    List (Matrix (Fin 2) (Fin 2) K) :=
  element_list.foldl (fun ml p => ml.set p.2 p.1) (List.replicate n 1)

/-- `recursive_kron(matrix_list)` in the factor-function representation:
entry `(s, t)` is the product over factor positions `p` of the `p`-th local
matrix's `(s p, t p)` entry. -/
def electronic_identity_kron_core (K : Type) [Field K] (n : ℕ)
    (element_list : List (Matrix (Fin 2) (Fin 2) K × ℕ)) :
    Matrix (Fin n → Fin 2) (Fin n → Fin 2) K :=
  Matrix.of fun s t =>
    ∏ p : Fin n, ((electronic_matrix_list K n element_list).getD p 1) (s p) (t p)

/-- Embedding of `electronic_identity_kron(element_list)` including its
dimension check: `num_identities = num_sites - len(element_list)`; if
negative, raise `ValueError('Too many elements for Hilbert space')`;
otherwise assemble the Kronecker product. -/
def electronic_identity_kron (K : Type) [Field K] (n : ℕ)
    (element_list : List (Matrix (Fin 2) (Fin 2) K × ℕ)) :
    Except PyError (Matrix (Fin n → Fin 2) (Fin n → Fin 2) K) :=
  if n < element_list.length then
    .error (.valueError "Too many elements for Hilbert space")
  else .ok (electronic_identity_kron_core K n element_list)

/-- Embedding of `make_single_operator_list(O)`: one full-space operator per
site, with `O` at that site and identities elsewhere.  (The source calls
`electronic_identity_kron([(O, i)])`, whose check never fires since
`1 ≤ num_sites`; we use the unchecked core.) -/
def make_single_operator_list (K : Type) [Field K] (n : ℕ)
    (O : Matrix (Fin 2) (Fin 2) K) :
    List (Matrix (Fin n → Fin 2) (Fin n → Fin 2) K) :=
  (List.range n).map fun i => electronic_identity_kron_core K n [(O, i)]

/-- `itertools.combinations(range(n), 2)` in its lexicographic order. -/
def combinations2 (n : ℕ) : List (ℕ × ℕ) :=
  (List.range n).bind fun i =>
    ((List.range n).filter fun j => decide (i < j)).map fun j => (i, j)

/-- Embedding of `make_multi_operator_list(o_list)` for a two-element
`o_list = [o1, o2]` (the only arity the source uses): for each position pair
`(i, j)` of `combinations2`, place `o1` at site `i` and `o2` at site `j`. -/
def make_multi_operator_list2 (K : Type) [Field K] (n : ℕ)
    (o1 o2 : Matrix (Fin 2) (Fin 2) K) :
    List (Matrix (Fin n → Fin 2) (Fin n → Fin 2) K) :=
  (combinations2 n).map fun ij =>
    electronic_identity_kron_core K n [(o1, ij.1), (o2, ij.2)]

/-- `set_exchange_list`: `make_multi_operator_list([self.up, self.down])`,
i.e. `up` at site `i` and `down` at site `j` for each pair `i < j`. -/
def exchange_list (K : Type) [Field K] (n : ℕ) :
    List (Matrix (Fin n → Fin 2) (Fin n → Fin 2) K) :=
  make_multi_operator_list2 K n (up_op K) (down_op K)

/-- `set_occupied_list`: `make_single_operator_list(self.occupied)`. -/
def occupied_list (K : Type) [Field K] (n : ℕ) :
    List (Matrix (Fin n → Fin 2) (Fin n → Fin 2) K) :=
  make_single_operator_list K n (occupied_op K)

/-- `set_sz_list`: `make_single_operator_list(self.sz)`. -/
def sz_list (K : Type) [Field K] (n : ℕ) :
    List (Matrix (Fin n → Fin 2) (Fin n → Fin 2) K) :=
  make_single_operator_list K n (sz_op K)

/-- Embedding of `make_electronic_hamiltonian`: the accumulation loops
`ham += energies[i] * occupied_list[i]` and
`ham += couplings[i] * exchange_list[i]; ham += conj(couplings[i]) *
exchange_list[i].T` rendered as finite sums. -/
def make_electronic_hamiltonian (K : Type) [Field K] [StarRing K] (n : ℕ)
    (energies couplings : List K) :
    Matrix (Fin n → Fin 2) (Fin n → Fin 2) K :=
  (∑ i ∈ Finset.range n, energies.getD i 0 • (occupied_list K n).getD i 0) +
    ∑ k ∈ Finset.range (exchange_list K n).length,
      (couplings.getD k 0 • (exchange_list K n).getD k 0 +
        star (couplings.getD k 0) • ((exchange_list K n).getD k 0).transpose)

theorem foldl_set_getD_of_not_mem {K : Type} [Field K]
    (l : List (Matrix (Fin 2) (Fin 2) K × ℕ))
    (acc : List (Matrix (Fin 2) (Fin 2) K)) (p : ℕ)
    (hp : ∀ q ∈ l, q.2 ≠ p) :
    (l.foldl (fun ml q => ml.set q.2 q.1) acc).getD p 1 = acc.getD p 1 := by
  induction l generalizing acc with
  | nil => rfl
  | cons q rest ih =>
    rw [List.foldl_cons,
      ih _ (fun r hr => hp r (List.mem_cons_of_mem q hr)),
      List.getD_eq_getElem?_getD, List.getD_eq_getElem?_getD,
      List.getElem?_set_ne (hp q (List.mem_cons_self q rest))]

theorem foldl_set_getD_of_mem {K : Type} [Field K]
    (l : List (Matrix (Fin 2) (Fin 2) K × ℕ))
    (acc : List (Matrix (Fin 2) (Fin 2) K))
    (el : Matrix (Fin 2) (Fin 2) K) (p : ℕ) (hlen : p < acc.length)
    (hdist : l.Pairwise (fun a b => a.2 ≠ b.2)) (hmem : (el, p) ∈ l) :
    (l.foldl (fun ml q => ml.set q.2 q.1) acc).getD p 1 = el := by
  induction l generalizing acc with
  | nil => exact absurd hmem (List.not_mem_nil _)
  | cons q rest ih =>
    rcases List.mem_cons.mp hmem with heq | hmem'
    · subst heq
      rw [List.foldl_cons,
        foldl_set_getD_of_not_mem rest _ p
          (fun r hr => Ne.symm ((List.pairwise_cons.mp hdist).1 r hr)),
        List.getD_eq_getElem?_getD, List.getElem?_set_self
          (by simpa using hlen)]
      rfl
    · rw [List.foldl_cons]
      exact ih _ (by simpa using hlen) (List.pairwise_cons.mp hdist).2 hmem'

/-- Claim C9 is false about the error type: placing more local operators
than there are tensor factors raises `ValueError('Too many elements for
Hilbert space')`, not a `DimensionError` (no `DimensionError` exists in the
source). -/
theorem C9_counterexample :
    electronic_identity_kron ℚ 1 [(1, 0), (1, 1)] =
      Except.error (PyError.valueError "Too many elements for Hilbert space") ∧
    (electronic_identity_kron ℚ 1 [(1, 0), (1, 1)] ≠
      Except.error (PyError.dimensionError "Too many elements for Hilbert space")) := by
  constructor
  · rfl
  · intro h
    rw [electronic_identity_kron, if_pos (by norm_num)] at h
    simp at h

/-- Claim C9 (amended): requesting more simultaneous local operators than
there are tensor factors fails immediately with
`ValueError('Too many elements for Hilbert space')`; when the element count
is at most the number of sites, the builder succeeds and returns the
Kronecker product that has each listed operator at its requested factor
position and identities at all unoccupied positions, in left-to-right factor
order. -/
theorem C9_electronic_identity_kron_amended {K : Type} [Field K] (n : ℕ)
    (element_list : List (Matrix (Fin 2) (Fin 2) K × ℕ)) :
    (n < element_list.length →
      electronic_identity_kron K n element_list =
        Except.error (PyError.valueError "Too many elements for Hilbert space")) ∧
    (element_list.length ≤ n →
      electronic_identity_kron K n element_list =
        Except.ok (electronic_identity_kron_core K n element_list)) ∧
    (element_list.Pairwise (fun a b => a.2 ≠ b.2) →
      (∀ el pos, (el, pos) ∈ element_list → pos < n →
        (electronic_matrix_list K n element_list).getD pos 1 = el) ∧
      (∀ pos, (∀ q ∈ element_list, q.2 ≠ pos) →
        (electronic_matrix_list K n element_list).getD pos 1 = 1)) := by
  refine ⟨fun h => ?_, fun h => ?_, fun hdist => ⟨?_, ?_⟩⟩
  · rw [electronic_identity_kron, if_pos h]
  · rw [electronic_identity_kron, if_neg (not_lt.mpr h)]
  · intro el pos hmem hpos
    exact foldl_set_getD_of_mem element_list _ el pos (by simpa using hpos)
      hdist hmem
  · intro pos hpos
    rw [electronic_matrix_list, foldl_set_getD_of_not_mem element_list _ pos hpos]
    rcases lt_or_le pos n with h | h
    · rw [List.getD_eq_getElem?_getD, List.getElem?_replicate,
        if_pos (by simpa using h)]
      rfl
    · rw [List.getD_eq_getElem?_getD, List.getElem?_eq_none (by simpa using h)]
      rfl

/-- Witness for claim C9 (amended): at `n = 2` with operators at both sites,
the check passes, the assembled operator has the listed operators at their
positions, and a site list with both positions occupied has no identity
factor; at `n = 1` with two operators the check fails. -/
theorem C9_witness :
    electronic_identity_kron ℚ 1 [(1, 0), (1, 1)] =
      Except.error (PyError.valueError "Too many elements for Hilbert space") ∧
    electronic_identity_kron ℚ 2 [(up_op ℚ, 0), (down_op ℚ, 1)] =
      Except.ok (electronic_identity_kron_core ℚ 2 [(up_op ℚ, 0), (down_op ℚ, 1)]) ∧
    (electronic_matrix_list ℚ 2 [(up_op ℚ, 0), (down_op ℚ, 1)]).getD 0 1 =
      up_op ℚ := by
  refine ⟨(C9_electronic_identity_kron_amended 1 [(1, 0), (1, 1)]).1 (by norm_num),
    (C9_electronic_identity_kron_amended 2 [(up_op ℚ, 0), (down_op ℚ, 1)]).2.1
      (by norm_num),
    ((C9_electronic_identity_kron_amended 2
      [(up_op ℚ, 0), (down_op ℚ, 1)]).2.2 ?_).1 (up_op ℚ) 0 ?_ (by norm_num)⟩
  · simp
  · simp

theorem up_op_apply {K : Type} [Field K] (a b : Fin 2) :
    up_op K a b = if a = 1 ∧ b = 0 then 1 else 0 := by
  fin_cases a <;> fin_cases b <;> simp [up_op]

theorem down_op_apply {K : Type} [Field K] (a b : Fin 2) :
    down_op K a b = if a = 0 ∧ b = 1 then 1 else 0 := by
  fin_cases a <;> fin_cases b <;> simp [down_op]

/-- Modelled from the spec (claim C5 wording, with the exchange direction as
implemented): the operator on the full electronic space that raises site `i`
and lowers site `j`, i.e. maps the basis state with site `j` occupied and
site `i` empty to the one with site `i` occupied and site `j` empty, leaving
all other sites unchanged. -/
def raise_lower_matrix (K : Type) [Field K] (n i j : ℕ) :
    Matrix (Fin n → Fin 2) (Fin n → Fin 2) K :=
  Matrix.of fun s t =>
    if (∀ p : Fin n, ((p : ℕ) = i → s p = 1 ∧ t p = 0) ∧
        ((p : ℕ) = j → s p = 0 ∧ t p = 1) ∧
        ((p : ℕ) ≠ i → (p : ℕ) ≠ j → s p = t p)) then 1 else 0

theorem exchange_factor_eq {K : Type} [Field K] {n i j : ℕ} (hij : i ≠ j)
    (hi : i < n) (hj : j < n) (p : Fin n) :
    (electronic_matrix_list K n [(up_op K, i), (down_op K, j)]).getD p 1 =
      if (p : ℕ) = i then up_op K
      else if (p : ℕ) = j then down_op K else 1 := by
  by_cases hpi : (p : ℕ) = i
  · rw [if_pos hpi]
    simp only [hpi]
    exact foldl_set_getD_of_mem _ _ _ _ (by simpa using hi)
      (by simp [hij]) (by simp)
  · by_cases hpj : (p : ℕ) = j
    · rw [if_neg hpi, if_pos hpj]
      simp only [hpj]
      exact foldl_set_getD_of_mem _ _ _ _ (by simpa using hj)
        (by simp [hij]) (by simp)
    · rw [if_neg hpi, if_neg hpj, electronic_matrix_list,
        foldl_set_getD_of_not_mem _ _ _
          (by simp [Ne.symm hpi, Ne.symm hpj]),
        List.getD_eq_getElem?_getD, List.getElem?_replicate,
        if_pos (by simpa using p.isLt)]
      rfl

theorem exchange_core_eq_raise_lower {K : Type} [Field K] {n i j : ℕ}
    (hij : i ≠ j) (hi : i < n) (hj : j < n) :
    electronic_identity_kron_core K n [(up_op K, i), (down_op K, j)] =
      raise_lower_matrix K n i j := by
  funext s t
  show (∏ p : Fin n,
      (electronic_matrix_list K n [(up_op K, i), (down_op K, j)]).getD p 1
        (s p) (t p)) = raise_lower_matrix K n i j s t
  have hcond : ∀ p : Fin n,
      (electronic_matrix_list K n [(up_op K, i), (down_op K, j)]).getD p 1
        (s p) (t p) =
      if (if (p : ℕ) = i then s p = 1 ∧ t p = 0
          else if (p : ℕ) = j then s p = 0 ∧ t p = 1 else s p = t p)
      then (1 : K) else 0 := by
    intro p
    rw [exchange_factor_eq hij hi hj p]
    by_cases hpi : (p : ℕ) = i
    · rw [if_pos hpi, up_op_apply]
      exact if_congr (by rw [if_pos hpi]) rfl rfl
    · by_cases hpj : (p : ℕ) = j
      · rw [if_neg hpi, if_pos hpj, down_op_apply]
        exact if_congr (by rw [if_neg hpi, if_pos hpj]) rfl rfl
      · rw [if_neg hpi, if_neg hpj, Matrix.one_apply]
        exact if_congr (by rw [if_neg hpi, if_neg hpj]) rfl rfl
  rw [Finset.prod_congr rfl fun p _ => hcond p, Finset.prod_boole]
  simp only [raise_lower_matrix, Matrix.of_apply, Finset.mem_univ,
    true_implies]
  refine if_congr ?_ rfl rfl
  constructor
  · intro h p
    have hp := h p
    refine ⟨fun hpi => ?_, fun hpj => ?_, fun hpi hpj => ?_⟩
    · rwa [if_pos hpi] at hp
    · have hpi : (p : ℕ) ≠ i := fun hc => hij (hc.symm.trans hpj)
      rwa [if_neg hpi, if_pos hpj] at hp
    · rwa [if_neg hpi, if_neg hpj] at hp
  · intro h p
    obtain ⟨h1, h2, h3⟩ := h p
    by_cases hpi : (p : ℕ) = i
    · rw [if_pos hpi]; exact h1 hpi
    · by_cases hpj : (p : ℕ) = j
      · rw [if_neg hpi, if_pos hpj]; exact h2 hpj
      · rw [if_neg hpi, if_neg hpj]; exact h3 hpi hpj

theorem mem_combinations2 {n : ℕ} {q : ℕ × ℕ} (hq : q ∈ combinations2 n) :
    q.1 < q.2 ∧ q.2 < n := by
  simp only [combinations2, List.mem_bind, List.mem_map, List.mem_filter,
    List.mem_range, decide_eq_true_eq] at hq
  obtain ⟨i, hi, j, ⟨hj, hij⟩, rfl⟩ := hq
  exact ⟨hij, hj⟩

/-- Modelled from the spec (claim C5 wording): the electronic Hamiltonian
`H = Σᵢ Eᵢ·occupiedᵢ + Σ_{i<j} (Jᵢⱼ·exchangeᵢⱼ + conj(Jᵢⱼ)·exchangeᵢⱼᵀ)`
with the spec's exchange direction: `exchangeᵢⱼ` raises site `j` and lowers
site `i`.  Comparison definition for the refinement claim; the source's
exchange operator raises site `i` and lowers site `j`. -/
def spec_electronic_hamiltonian (K : Type) [Field K] [StarRing K] (n : ℕ)
    (energies couplings : List K) :
    Matrix (Fin n → Fin 2) (Fin n → Fin 2) K :=
  (∑ i ∈ Finset.range n, energies.getD i 0 • (occupied_list K n).getD i 0) +
    ∑ k ∈ Finset.range (combinations2 n).length,
      (couplings.getD k 0 •
          raise_lower_matrix K n ((combinations2 n).getD k (0, 0)).2
            ((combinations2 n).getD k (0, 0)).1 +
        star (couplings.getD k 0) •
          (raise_lower_matrix K n ((combinations2 n).getD k (0, 0)).2
            ((combinations2 n).getD k (0, 0)).1).transpose)

/-- The electronic Hamiltonian written with each exchange operator replaced
by its raise-lower characterization: helper form shared by later proofs. -/
theorem electronic_hamiltonian_raise_lower_form {K : Type} [Field K]
    [StarRing K] (n : ℕ) (energies couplings : List K) :
    make_electronic_hamiltonian K n energies couplings =
      (∑ i ∈ Finset.range n, energies.getD i 0 • (occupied_list K n).getD i 0) +
        ∑ k ∈ Finset.range (combinations2 n).length,
          (couplings.getD k 0 •
              raise_lower_matrix K n ((combinations2 n).getD k (0, 0)).1
                ((combinations2 n).getD k (0, 0)).2 +
            star (couplings.getD k 0) •
              (raise_lower_matrix K n ((combinations2 n).getD k (0, 0)).1
                ((combinations2 n).getD k (0, 0)).2).transpose) := by
  rw [make_electronic_hamiltonian]
  have hlen : (exchange_list K n).length = (combinations2 n).length := by
    simp [exchange_list, make_multi_operator_list2]
  rw [hlen]
  congr 1
  refine Finset.sum_congr rfl fun k hk => ?_
  have hk' : k < (combinations2 n).length := Finset.mem_range.mp hk
  have hmem : (combinations2 n).getD k (0, 0) ∈ combinations2 n := by
    rw [List.getD_eq_getElem _ _ hk']
    exact List.getElem_mem _
  obtain ⟨hlt, hn⟩ := mem_combinations2 hmem
  have hget : (combinations2 n).getD k (0, 0) = (combinations2 n)[k] :=
    List.getD_eq_getElem _ _ hk'
  have hx : (exchange_list K n).getD k 0 =
      raise_lower_matrix K n ((combinations2 n).getD k (0, 0)).1
        ((combinations2 n).getD k (0, 0)).2 := by
    rw [exchange_list, make_multi_operator_list2,
      List.getD_eq_getElem _ _ (by rw [List.length_map]; exact hk'),
      List.getElem_map, hget]
    rw [hget] at hlt hn
    exact exchange_core_eq_raise_lower (ne_of_lt hlt) (lt_trans hlt hn) hn
  rw [hx]

/-- Claim C5 (amended): the electronic Hamiltonian equals
`Σᵢ Eᵢ·occupiedᵢ + Σ_{i<j} (Jᵢⱼ·exchangeᵢⱼ + conj(Jᵢⱼ)·exchangeᵢⱼᵀ)` over the
lexicographically ordered pairs `i < j`, where `exchangeᵢⱼ` raises site `i`
and lowers site `j` (maps the basis state with site `j` occupied and site
`i` empty to the one with site `i` occupied and site `j` empty). -/
theorem C5_electronic_hamiltonian_amended {K : Type} [Field K] [StarRing K]
    (n : ℕ) (energies couplings : List K) :
    make_electronic_hamiltonian K n energies couplings =
      (∑ i ∈ Finset.range n, energies.getD i 0 • (occupied_list K n).getD i 0) +
        ∑ k ∈ Finset.range (combinations2 n).length,
          (couplings.getD k 0 •
              raise_lower_matrix K n ((combinations2 n).getD k (0, 0)).1
                ((combinations2 n).getD k (0, 0)).2 +
            star (couplings.getD k 0) •
              (raise_lower_matrix K n ((combinations2 n).getD k (0, 0)).1
                ((combinations2 n).getD k (0, 0)).2).transpose) :=
  electronic_hamiltonian_raise_lower_form n energies couplings

/-- Claim C5 is false about the exchange direction: for two sites with
energies `0, 0` and the complex coupling `J = 1j`, the Hamiltonian built by
the source differs from the spec's formula in which `exchangeᵢⱼ` raises site
`j` and lowers site `i`: the source's exchange operator raises site `i` and
lowers site `j`, so the two formulas differ by `J ↔ conj(J)` on the
off-diagonal entries. -/
theorem C5_counterexample :
    make_electronic_hamiltonian CC 2 [0, 0] [CC.I] ≠
      spec_electronic_hamiltonian CC 2 [0, 0] [CC.I] := by
  intro h
  have h1 := congrFun (congrFun h ![1, 0]) ![0, 1]
  have hcomb : combinations2 2 = [(0, 1)] := rfl
  have hexch : exchange_list CC 2 = [raise_lower_matrix CC 2 0 1] := by
    rw [exchange_list, make_multi_operator_list2, hcomb, List.map_cons,
      List.map_nil,
      exchange_core_eq_raise_lower (by norm_num) (by norm_num) (by norm_num)]
  rw [make_electronic_hamiltonian, spec_electronic_hamiltonian, hexch, hcomb]
    at h1
  have e1 : raise_lower_matrix CC 2 0 1 ![1, 0] ![0, 1] = 1 := by
    rw [raise_lower_matrix, Matrix.of_apply, if_pos (by decide)]
  have e2 : raise_lower_matrix CC 2 0 1 ![0, 1] ![1, 0] = 0 := by
    rw [raise_lower_matrix, Matrix.of_apply, if_neg (by decide)]
  have e3 : raise_lower_matrix CC 2 1 0 ![1, 0] ![0, 1] = 0 := by
    rw [raise_lower_matrix, Matrix.of_apply, if_neg (by decide)]
  have e4 : raise_lower_matrix CC 2 1 0 ![0, 1] ![1, 0] = 1 := by
    rw [raise_lower_matrix, Matrix.of_apply, if_pos (by decide)]
  simp only [Finset.sum_range_succ, Finset.sum_range_zero, List.length_cons,
    List.length_nil, List.getD_cons_zero, List.getD_cons_succ,
    Matrix.add_apply, Matrix.smul_apply, Matrix.transpose_apply,
    smul_eq_mul, zero_add] at h1
  rw [e1, e2, e3, e4] at h1
  have him := congrArg CC.im h1
  simp [CC.I] at him
  exact absurd him (by norm_num)

/-! ## Electronic eigensystem reconstruction by manifold

Source: `Lindblad_eigenstates.py`, lines 101-158 (`extract_manifold`,
`manifold_to_full`) and 673-690 (`set_electronic_eigensystem`).  In the
factor-function representation a basis function's total occupation number is
the sum of its digits; the manifold mask becomes the subtype of basis
functions with a given occupation.  `np.linalg.eigh` is an external numpy
routine; its per-manifold outputs enter the model as inputs.  The arrays
`eigvecs` and `d` are allocated with `np.zeros(H.shape)` (real dtype), so
this part of the model is over `ℝ`. -/

/-- The total electronic occupation of a basis function: the entry of
`electronic_total_occupation_number` at the corresponding flat index. -/
def occupation {n : ℕ} (s : Fin n → Fin 2) : ℕ := ∑ p, (s p : ℕ)

/-- The basis of electronic manifold `m`: the part of the basis selected by
`electronic_manifold_mask(m)`. -/
abbrev manifold_basis (n m : ℕ) : Type := {s : Fin n → Fin 2 // occupation s = m}

/-- Embedding of `extract_manifold(O, manifold_num)`: restrict an operator
to the rows and columns of one manifold. -/
def extract_manifold {K : Type} (n m : ℕ)
    (O : Matrix (Fin n → Fin 2) (Fin n → Fin 2) K) :
    Matrix (manifold_basis n m) (manifold_basis n m) K :=
  Matrix.of fun a b => O a.1 b.1

/-- Embedding of `manifold_to_full(O, manifold_num)`: zero-pad a manifold
operator back to the full Hilbert space. -/
def manifold_to_full {K : Type} [Field K] (n m : ℕ)
    (O : Matrix (manifold_basis n m) (manifold_basis n m) K) :
    Matrix (Fin n → Fin 2) (Fin n → Fin 2) K :=
  Matrix.of fun s t =>
    if h : occupation s = m ∧ occupation t = m then O ⟨s, h.1⟩ ⟨t, h.2⟩ else 0

theorem occupied_op_apply {K : Type} [Field K] (a b : Fin 2) :
    occupied_op K a b = if a = 1 ∧ b = 1 then 1 else 0 := by
  fin_cases a <;> fin_cases b <;> simp [occupied_op]

theorem single_factor_eq {K : Type} [Field K] {n i : ℕ}
    (O : Matrix (Fin 2) (Fin 2) K) (p : Fin n) :
    (electronic_matrix_list K n [(O, i)]).getD p 1 =
      if (p : ℕ) = i then O else 1 := by
  by_cases hpi : (p : ℕ) = i
  · rw [if_pos hpi]
    simp only [hpi]
    exact foldl_set_getD_of_mem _ _ _ _ (by simpa [← hpi] using p.isLt)
      (by simp) (by simp)
  · rw [if_neg hpi, electronic_matrix_list,
      foldl_set_getD_of_not_mem _ _ _ (by simp [Ne.symm hpi]),
      List.getD_eq_getElem?_getD, List.getElem?_replicate,
      if_pos (by simpa using p.isLt)]
    rfl

theorem occupied_core_zero {K : Type} [Field K] {n i : ℕ}
    {s t : Fin n → Fin 2} (hst : s ≠ t) :
    electronic_identity_kron_core K n [(occupied_op K, i)] s t = 0 := by
  obtain ⟨p, hp⟩ : ∃ p, s p ≠ t p := by
    by_contra hc
    push_neg at hc
    exact hst (funext hc)
  rw [electronic_identity_kron_core, Matrix.of_apply]
  refine Finset.prod_eq_zero (Finset.mem_univ p) ?_
  rw [single_factor_eq]
  by_cases hpi : (p : ℕ) = i
  · rw [if_pos hpi, occupied_op_apply, if_neg]
    rintro ⟨h1, h2⟩
    exact hp (h1.trans h2.symm)
  · rw [if_neg hpi, Matrix.one_apply, if_neg hp]

theorem occupation_eq_of_exchange_cond {n i j : ℕ} {s t : Fin n → Fin 2}
    (hi : i < n) (hj : j < n) (hij : i ≠ j)
    (h : ∀ p : Fin n, ((p : ℕ) = i → s p = 1 ∧ t p = 0) ∧
        ((p : ℕ) = j → s p = 0 ∧ t p = 1) ∧
        ((p : ℕ) ≠ i → (p : ℕ) ≠ j → s p = t p)) :
    occupation s = occupation t := by
  have hfij : (⟨i, hi⟩ : Fin n) ≠ ⟨j, hj⟩ := by
    simp [Fin.ext_iff, hij]
  have hmemj : (⟨j, hj⟩ : Fin n) ∈ Finset.univ.erase (⟨i, hi⟩ : Fin n) :=
    Finset.mem_erase.mpr ⟨Ne.symm hfij, Finset.mem_univ _⟩
  obtain ⟨hsi, hti⟩ := (h ⟨i, hi⟩).1 rfl
  obtain ⟨hsj, htj⟩ := (h ⟨j, hj⟩).2.1 rfl
  have hrest : ∀ p ∈ (Finset.univ.erase (⟨i, hi⟩ : Fin n)).erase ⟨j, hj⟩,
      s p = t p := by
    intro p hp
    obtain ⟨hpj, hp2⟩ := Finset.mem_erase.mp hp
    obtain ⟨hpi, _⟩ := Finset.mem_erase.mp hp2
    exact (h p).2.2 (fun hc => hpi (Fin.ext hc)) (fun hc => hpj (Fin.ext hc))
  have expand : ∀ u : Fin n → Fin 2,
      occupation u = (u ⟨i, hi⟩ : ℕ) + ((u ⟨j, hj⟩ : ℕ) +
        ∑ p ∈ (Finset.univ.erase (⟨i, hi⟩ : Fin n)).erase ⟨j, hj⟩, (u p : ℕ)) := by
    intro u
    rw [occupation,
      ← Finset.add_sum_erase _ _ (Finset.mem_univ (⟨i, hi⟩ : Fin n)),
      ← Finset.add_sum_erase _ _ hmemj]
  have hsum : ∑ p ∈ (Finset.univ.erase (⟨i, hi⟩ : Fin n)).erase ⟨j, hj⟩,
      ((s p : ℕ)) = ∑ p ∈ (Finset.univ.erase (⟨i, hi⟩ : Fin n)).erase ⟨j, hj⟩,
      ((t p : ℕ)) :=
    Finset.sum_congr rfl fun p hp => by rw [hrest p hp]
  rw [expand s, expand t, hsum, hsi, hti, hsj, htj]
  simp

theorem single_operator_list_getD {K : Type} [Field K] {n i : ℕ} (hi : i < n)
    (O : Matrix (Fin 2) (Fin 2) K) :
    (make_single_operator_list K n O).getD i 0 =
      electronic_identity_kron_core K n [(O, i)] := by
  rw [make_single_operator_list,
    List.getD_eq_getElem _ _ (by simpa using hi), List.getElem_map,
    List.getElem_range]

/-- The electronic Hamiltonian never couples basis states of different total
occupation: it is block-diagonal with respect to the manifold partition. -/
theorem make_electronic_hamiltonian_occ_block {n : ℕ}
    (energies couplings : List ℝ) {s t : Fin n → Fin 2}
    (hne : occupation s ≠ occupation t) :
    make_electronic_hamiltonian ℝ n energies couplings s t = 0 := by
  have hst : s ≠ t := fun hc => hne (by rw [hc])
  rw [electronic_hamiltonian_raise_lower_form, Matrix.add_apply,
    Matrix.sum_apply, Matrix.sum_apply]
  have hocc : ∀ i ∈ Finset.range n,
      (energies.getD i 0 • (occupied_list ℝ n).getD i 0) s t = 0 := by
    intro i hi
    rw [Matrix.smul_apply, occupied_list,
      single_operator_list_getD (Finset.mem_range.mp hi),
      occupied_core_zero hst, smul_zero]
  have hex : ∀ k ∈ Finset.range (combinations2 n).length,
      ((couplings.getD k 0 •
          raise_lower_matrix ℝ n ((combinations2 n).getD k (0, 0)).1
            ((combinations2 n).getD k (0, 0)).2 +
        star (couplings.getD k 0) •
          (raise_lower_matrix ℝ n ((combinations2 n).getD k (0, 0)).1
            ((combinations2 n).getD k (0, 0)).2).transpose)) s t = 0 := by
    intro k hk
    have hk' := Finset.mem_range.mp hk
    have hmem : (combinations2 n).getD k (0, 0) ∈ combinations2 n := by
      rw [List.getD_eq_getElem _ _ hk']
      exact List.getElem_mem _
    obtain ⟨hlt, hn2⟩ := mem_combinations2 hmem
    rw [Matrix.add_apply, Matrix.smul_apply, Matrix.smul_apply,
      Matrix.transpose_apply]
    have hz1 : raise_lower_matrix ℝ n ((combinations2 n).getD k (0, 0)).1
        ((combinations2 n).getD k (0, 0)).2 s t = 0 := by
      rw [raise_lower_matrix, Matrix.of_apply, if_neg]
      intro hcond
      exact hne (occupation_eq_of_exchange_cond (lt_trans hlt hn2) hn2
        (ne_of_lt hlt) hcond)
    have hz2 : raise_lower_matrix ℝ n ((combinations2 n).getD k (0, 0)).1
        ((combinations2 n).getD k (0, 0)).2 t s = 0 := by
      rw [raise_lower_matrix, Matrix.of_apply, if_neg]
      intro hcond
      exact hne (occupation_eq_of_exchange_cond (lt_trans hlt hn2) hn2
        (ne_of_lt hlt) hcond).symm
    rw [hz1, hz2, smul_zero, smul_zero, add_zero]
  rw [Finset.sum_eq_zero hocc, Finset.sum_eq_zero hex, add_zero]

theorem manifold_to_full_apply_left {K : Type} [Field K] {n m : ℕ}
    (O : Matrix (manifold_basis n m) (manifold_basis n m) K)
    (w t : Fin n → Fin 2) (ht : occupation t = m) :
    manifold_to_full n m O w t =
      if h : occupation w = m then O ⟨w, h⟩ ⟨t, ht⟩ else 0 := by
  by_cases hw : occupation w = m
  · simp only [manifold_to_full, Matrix.of_apply]
    rw [dif_pos ⟨hw, ht⟩, dif_pos hw]
  · simp only [manifold_to_full, Matrix.of_apply]
    rw [dif_neg (fun hc => hw hc.1), dif_neg hw]

theorem manifold_to_full_apply_zero_fst {K : Type} [Field K] {n m : ℕ}
    (O : Matrix (manifold_basis n m) (manifold_basis n m) K)
    {s : Fin n → Fin 2} (t : Fin n → Fin 2) (hs : occupation s ≠ m) :
    manifold_to_full n m O s t = 0 := by
  simp only [manifold_to_full, Matrix.of_apply]
  exact dif_neg fun hc => hs hc.1

theorem manifold_to_full_apply_zero_snd {K : Type} [Field K] {n m : ℕ}
    (O : Matrix (manifold_basis n m) (manifold_basis n m) K)
    (s : Fin n → Fin 2) {t : Fin n → Fin 2} (ht : occupation t ≠ m) :
    manifold_to_full n m O s t = 0 := by
  simp only [manifold_to_full, Matrix.of_apply]
  exact dif_neg fun hc => ht hc.2

theorem sum_dite_occupation {K : Type} [Field K] (n m : ℕ)
    (f : manifold_basis n m → K) :
    (∑ u : Fin n → Fin 2, if h : occupation u = m then f ⟨u, h⟩ else 0) =
      ∑ a : manifold_basis n m, f a := by
  calc (∑ u : Fin n → Fin 2, if h : occupation u = m then f ⟨u, h⟩ else 0)
      = ∑ u ∈ Finset.univ.filter (fun u => occupation u = m),
          (if h : occupation u = m then f ⟨u, h⟩ else 0) := by
        refine (Finset.sum_filter_of_ne fun u _ hne => ?_).symm
        by_contra hc
        exact hne (dif_neg hc)
    _ = ∑ a : manifold_basis n m,
          (if h : occupation a.1 = m then f ⟨a.1, h⟩ else 0) :=
        Finset.sum_subtype _ (by simp) _
    _ = ∑ a : manifold_basis n m, f a :=
        Finset.sum_congr rfl fun a _ => by rw [dif_pos a.2]

theorem full_mul_H_mul_full_ne {K : Type} [Field K] {n m m' : ℕ}
    (hmm : m ≠ m') (H : Matrix (Fin n → Fin 2) (Fin n → Fin 2) K)
    (hH : ∀ u w, occupation u ≠ occupation w → H u w = 0)
    (A : Matrix (manifold_basis n m) (manifold_basis n m) K)
    (B : Matrix (manifold_basis n m') (manifold_basis n m') K) :
    (manifold_to_full n m A).transpose * H * manifold_to_full n m' B = 0 := by
  ext s t
  rw [Matrix.mul_apply, Matrix.zero_apply]
  refine Finset.sum_eq_zero fun w _ => ?_
  by_cases hw : occupation w = m'
  · rw [Matrix.mul_apply, Finset.sum_eq_zero, zero_mul]
    intro u _
    rw [Matrix.transpose_apply]
    by_cases hu : occupation u = m
    · rw [hH u w (by rw [hu, hw]; exact hmm), mul_zero]
    · rw [manifold_to_full_apply_zero_fst _ _ hu, zero_mul]
  · rw [manifold_to_full_apply_zero_fst _ _ hw, mul_zero]

theorem full_mul_H_mul_full_eq {K : Type} [Field K] {n m : ℕ}
    (H : Matrix (Fin n → Fin 2) (Fin n → Fin 2) K)
    (A B : Matrix (manifold_basis n m) (manifold_basis n m) K) :
    (manifold_to_full n m A).transpose * H * manifold_to_full n m B =
      manifold_to_full n m (A.transpose * extract_manifold n m H * B) := by
  ext s t
  by_cases hs : occupation s = m
  · by_cases ht : occupation t = m
    · rw [Matrix.mul_apply]
      have hterm : ∀ w : Fin n → Fin 2,
          ((manifold_to_full n m A).transpose * H) s w *
            manifold_to_full n m B w t =
          (if h : occupation w = m then
            ((manifold_to_full n m A).transpose * H) s w * B ⟨w, h⟩ ⟨t, ht⟩
          else 0) := by
        intro w
        rw [manifold_to_full_apply_left B w t ht]
        by_cases hw : occupation w = m
        · rw [dif_pos hw, dif_pos hw]
        · rw [dif_neg hw, dif_neg hw, mul_zero]
      rw [Finset.sum_congr rfl fun w _ => hterm w,
        sum_dite_occupation n m
          (fun b => ((manifold_to_full n m A).transpose * H) s b.1 *
            B b ⟨t, ht⟩)]
      have hinner : ∀ b : manifold_basis n m,
          ((manifold_to_full n m A).transpose * H) s b.1 =
            (A.transpose * extract_manifold n m H) ⟨s, hs⟩ b := by
        intro b
        rw [Matrix.mul_apply, Matrix.mul_apply]
        have hterm2 : ∀ u : Fin n → Fin 2,
            (manifold_to_full n m A).transpose s u * H u b.1 =
            (if h : occupation u = m then
              A ⟨u, h⟩ ⟨s, hs⟩ * H u b.1 else 0) := by
          intro u
          rw [Matrix.transpose_apply, manifold_to_full_apply_left A u s hs]
          by_cases hu : occupation u = m
          · rw [dif_pos hu, dif_pos hu]
          · rw [dif_neg hu, dif_neg hu, zero_mul]
        rw [Finset.sum_congr rfl fun u _ => hterm2 u,
          sum_dite_occupation n m (fun a => A a ⟨s, hs⟩ * H a.1 b.1)]
        exact Finset.sum_congr rfl fun a _ => by
          rw [Matrix.transpose_apply]
          rfl
      rw [Finset.sum_congr rfl fun b _ => by rw [hinner b],
        manifold_to_full_apply_left _ s t ht, dif_pos hs, Matrix.mul_apply]
    · rw [manifold_to_full_apply_zero_snd _ _ ht, Matrix.mul_apply]
      refine Finset.sum_eq_zero fun w _ => ?_
      rw [manifold_to_full_apply_zero_snd _ _ ht, mul_zero]
  · rw [manifold_to_full_apply_zero_fst _ _ hs, Matrix.mul_apply]
    refine Finset.sum_eq_zero fun w _ => ?_
    rw [Matrix.mul_apply, Finset.sum_eq_zero, zero_mul]
    intro u _
    rw [Matrix.transpose_apply, manifold_to_full_apply_zero_snd _ _ hs,
      zero_mul]

/-- numpy's `np.allclose(A, B)` with tolerances `rtol`, `atol`:
`|A - B| <= atol + rtol * |B|` entrywise.  The source calls it with the
default tolerances `rtol = 1e-5`, `atol = 1e-8`. -/
def np_allclose {ι : Type} [Fintype ι] (rtol atol : ℝ) (A B : Matrix ι ι ℝ) :
    Prop :=
  ∀ s t, |A s t - B s t| ≤ atol + rtol * |B s t|

noncomputable instance {ι : Type} [Fintype ι] (rtol atol : ℝ)
    (A B : Matrix ι ι ℝ) : Decidable (np_allclose rtol atol A B) :=
  Classical.propDecidable _

theorem np_allclose_refl {ι : Type} [Fintype ι] (A : Matrix ι ι ℝ) :
    np_allclose 1e-5 1e-8 A A := by
  intro s t
  rw [sub_self, abs_zero]
  positivity

/-- The output of `np.linalg.eigh` on one electronic manifold block
(`make_manifold_eigensystem` / `get_eigensystem_by_manifold`): eigenvalues
and eigenvectors of the manifold-restricted Hamiltonian.  `eigh` is an
external numpy routine, so these data enter the model as inputs. -/
structure ManifoldEigensystem (n m : ℕ) where
  e : manifold_basis n m → ℝ
  v : Matrix (manifold_basis n m) (manifold_basis n m) ℝ

/-- The local variable `eigvecs` of `set_electronic_eigensystem`:
`np.zeros(H.shape)` accumulated with `manifold_to_full(v, i)` for
`i in range(num_sites + 1)`. -/
noncomputable def electronic_eigvecs (n : ℕ) (data : (m : ℕ) → ManifoldEigensystem n m) :
    Matrix (Fin n → Fin 2) (Fin n → Fin 2) ℝ :=
  ∑ m ∈ Finset.range (n + 1), manifold_to_full n m (data m).v

/-- The local variable `d` of `set_electronic_eigensystem`:
`np.zeros(H.shape)` accumulated with `manifold_to_full(np.diag(e), i)`. -/
noncomputable def electronic_eigvals_matrix (n : ℕ)
    (data : (m : ℕ) → ManifoldEigensystem n m) :
    Matrix (Fin n → Fin 2) (Fin n → Fin 2) ℝ :=
  ∑ m ∈ Finset.range (n + 1), manifold_to_full n m (Matrix.diagonal (data m).e)

/-- Embedding of `set_electronic_eigensystem`: build `eigvecs` and `d`,
compute `Hd = eigvecs.T.dot(H.dot(eigvecs))`, check
`np.allclose(Hd, d)` (default tolerances); on failure raise
`Exception('Diagonalization by manifold failed')`, on success publish
`electronic_eigenvectors = eigvecs` and
`electronic_eigenvalues = d.diagonal()`. -/
noncomputable def set_electronic_eigensystem (n : ℕ)
    (H : Matrix (Fin n → Fin 2) (Fin n → Fin 2) ℝ)
    (data : (m : ℕ) → ManifoldEigensystem n m) :
    Except String
      (Matrix (Fin n → Fin 2) (Fin n → Fin 2) ℝ × ((Fin n → Fin 2) → ℝ)) :=
  if np_allclose 1e-5 1e-8
      ((electronic_eigvecs n data).transpose * H * electronic_eigvecs n data)
      (electronic_eigvals_matrix n data) then
    Except.ok (electronic_eigvecs n data,
      fun s => electronic_eigvals_matrix n data s s)
  else Except.error "Diagonalization by manifold failed"

/-- If the per-manifold data exactly diagonalize each manifold block of the
electronic Hamiltonian, the block-diagonal embedding exactly
re-diagonalizes the full Hamiltonian. -/
theorem eigvecs_rediagonalize {n : ℕ} (energies couplings : List ℝ)
    (data : (m : ℕ) → ManifoldEigensystem n m)
    (hdiag : ∀ m, m ≤ n → (data m).v.transpose *
        extract_manifold n m
          (make_electronic_hamiltonian ℝ n energies couplings) *
        (data m).v = Matrix.diagonal (data m).e) :
    (electronic_eigvecs n data).transpose *
      make_electronic_hamiltonian ℝ n energies couplings *
      electronic_eigvecs n data = electronic_eigvals_matrix n data := by
  have hH : ∀ u w, occupation u ≠ occupation w →
      make_electronic_hamiltonian ℝ n energies couplings u w = 0 :=
    fun u w h => make_electronic_hamiltonian_occ_block energies couplings h
  have key : ∀ m ∈ Finset.range (n + 1),
      (manifold_to_full n m (data m).v).transpose *
        make_electronic_hamiltonian ℝ n energies couplings *
        electronic_eigvecs n data =
      manifold_to_full n m (Matrix.diagonal (data m).e) := by
    intro m hm
    rw [electronic_eigvecs, Matrix.mul_sum, Finset.sum_eq_single m]
    · rw [full_mul_H_mul_full_eq,
        hdiag m (Nat.lt_succ_iff.mp (Finset.mem_range.mp hm))]
    · intro m' _ hne
      exact full_mul_H_mul_full_ne (Ne.symm hne) _ hH _ _
    · intro hmem
      exact absurd hm hmem
  rw [electronic_eigvecs, Matrix.transpose_sum, Finset.sum_mul,
    Finset.sum_mul, electronic_eigvals_matrix]
  refine Finset.sum_congr rfl fun m hm => ?_
  have := key m hm
  rw [electronic_eigvecs] at this
  exact this

/-- Claim C6 (amended): reconstructing the global electronic eigenbasis `V`
by embedding each manifold's eigenvectors block-diagonally re-diagonalizes
the electronic Hamiltonian — exactly so when the per-manifold data exactly
diagonalize their blocks, and the published result is checked with
`np.allclose` at its default tolerances, relative `1e-5` and absolute
`1e-8` (not `1e-8`/`1e-8`); if that check fails, the fatal error
`Diagonalization by manifold failed` is raised and no eigensystem fields
are published. -/
theorem C6_set_electronic_eigensystem_amended (n : ℕ)
    (energies couplings : List ℝ)
    (data : (m : ℕ) → ManifoldEigensystem n m) :
    (np_allclose 1e-5 1e-8
        ((electronic_eigvecs n data).transpose *
          make_electronic_hamiltonian ℝ n energies couplings *
          electronic_eigvecs n data)
        (electronic_eigvals_matrix n data) →
      set_electronic_eigensystem n
          (make_electronic_hamiltonian ℝ n energies couplings) data =
        Except.ok (electronic_eigvecs n data,
          fun s => electronic_eigvals_matrix n data s s)) ∧
    (¬ np_allclose 1e-5 1e-8
        ((electronic_eigvecs n data).transpose *
          make_electronic_hamiltonian ℝ n energies couplings *
          electronic_eigvecs n data)
        (electronic_eigvals_matrix n data) →
      set_electronic_eigensystem n
          (make_electronic_hamiltonian ℝ n energies couplings) data =
        Except.error "Diagonalization by manifold failed") ∧
    ((∀ m, m ≤ n → (data m).v.transpose *
        extract_manifold n m
          (make_electronic_hamiltonian ℝ n energies couplings) *
        (data m).v = Matrix.diagonal (data m).e) →
      (electronic_eigvecs n data).transpose *
          make_electronic_hamiltonian ℝ n energies couplings *
          electronic_eigvecs n data = electronic_eigvals_matrix n data ∧
        set_electronic_eigensystem n
            (make_electronic_hamiltonian ℝ n energies couplings) data =
          Except.ok (electronic_eigvecs n data,
            fun s => electronic_eigvals_matrix n data s s)) := by
  refine ⟨fun h => ?_, fun h => ?_, fun hdiag => ?_⟩
  · rw [set_electronic_eigensystem, if_pos h]
  · rw [set_electronic_eigensystem, if_neg h]
  · have heq := eigvecs_rediagonalize energies couplings data hdiag
    refine ⟨heq, ?_⟩
    rw [set_electronic_eigensystem, if_pos (heq ▸ np_allclose_refl _)]

theorem fin1_fun_cases (s : Fin 1 → Fin 2) : s = ![0] ∨ s = ![1] := by
  by_cases h : s 0 = 0
  · left
    funext i
    fin_cases i
    simpa using h
  · right
    funext i
    fin_cases i
    have hlt := (s 0).isLt
    have hne : (s 0 : ℕ) ≠ 0 := fun hc => h (Fin.ext hc)
    have h1 : s 0 = 1 := Fin.ext (by omega)
    simpa using h1

theorem occupation_fin1 (s : Fin 1 → Fin 2) : occupation s = (s 0 : ℕ) := by
  rw [occupation, Fin.sum_univ_one]

/-- The single-site electronic Hamiltonian with site energy `1` (the `n = 1`
instance used to exercise `set_electronic_eigensystem` on concrete data). -/
noncomputable def C6H : Matrix (Fin 1 → Fin 2) (Fin 1 → Fin 2) ℝ :=
  make_electronic_hamiltonian ℝ 1 [1] []

theorem C6H_apply (s t : Fin 1 → Fin 2) :
    C6H s t = if s 0 = 1 ∧ t 0 = 1 then 1 else 0 := by
  rw [C6H, make_electronic_hamiltonian, Matrix.add_apply, Matrix.sum_apply,
    Matrix.sum_apply]
  have hlen : (exchange_list ℝ 1).length = 0 := rfl
  rw [hlen, Finset.range_zero, Finset.sum_empty, add_zero,
    Finset.sum_range_one, Matrix.smul_apply, occupied_list,
    single_operator_list_getD (by norm_num : (0 : ℕ) < 1),
    electronic_identity_kron_core, Matrix.of_apply, Fin.prod_univ_one,
    single_factor_eq,
    if_pos (show (((0 : Fin 1) : ℕ)) = 0 from rfl), occupied_op_apply]
  simp [List.getD]

/-- Concrete per-manifold eigensystem data for the single-site Hamiltonian
`C6H`: identity eigenvectors, eigenvalue `0` in manifold `0` and `c` in
manifold `1`.  (`c = 1` is the exact eigensystem.) -/
def C6_data (c : ℝ) : (m : ℕ) → ManifoldEigensystem 1 m :=
  fun m => ⟨fun _ => if m = 1 then c else 0, 1⟩

theorem C6_eigvecs_eq_one (c : ℝ) :
    electronic_eigvecs 1 (C6_data c) = 1 := by
  ext s t
  rw [electronic_eigvecs, Matrix.sum_apply]
  have hterm : ∀ m ∈ Finset.range 2,
      manifold_to_full 1 m (C6_data c m).v s t =
        if occupation s = m then
          (if s = t ∧ occupation t = m then (1 : ℝ) else 0) else 0 := by
    intro m _
    by_cases hs : occupation s = m
    · rw [if_pos hs]
      by_cases ht : occupation t = m
      · rw [manifold_to_full_apply_left _ _ _ ht, dif_pos hs]
        by_cases hst : s = t
        · rw [if_pos ⟨hst, ht⟩]
          show (1 : Matrix (manifold_basis 1 m) (manifold_basis 1 m) ℝ) _ _ = 1
          subst hst
          exact Matrix.one_apply_eq _
        · rw [if_neg (fun hc => hst hc.1)]
          show (1 : Matrix (manifold_basis 1 m) (manifold_basis 1 m) ℝ) _ _ = 0
          exact Matrix.one_apply_ne (fun hc => hst (congrArg Subtype.val hc))
      · rw [manifold_to_full_apply_zero_snd _ _ ht,
          if_neg (fun hc => ht hc.2)]
    · rw [manifold_to_full_apply_zero_fst _ _ hs, if_neg hs]
  rw [Finset.sum_congr rfl hterm, Finset.sum_ite_eq (Finset.range 2)
    (occupation s) (fun m => if s = t ∧ occupation t = m then (1 : ℝ) else 0),
    if_pos]
  · by_cases hst : s = t
    · subst hst
      rw [if_pos ⟨rfl, rfl⟩, Matrix.one_apply_eq]
    · rw [if_neg (fun hc => hst hc.1), Matrix.one_apply_ne hst]
  · rw [Finset.mem_range, occupation_fin1]
    exact (s 0).isLt

theorem C6_d_apply (c : ℝ) (s t : Fin 1 → Fin 2) :
    electronic_eigvals_matrix 1 (C6_data c) s t =
      if s = t then (if s 0 = 1 then c else 0) else 0 := by
  rw [electronic_eigvals_matrix, Matrix.sum_apply]
  have hterm : ∀ m ∈ Finset.range 2,
      manifold_to_full 1 m (Matrix.diagonal (C6_data c m).e) s t =
        if occupation s = m then
          (if s = t ∧ occupation t = m then
            (if m = 1 then c else 0) else 0) else 0 := by
    intro m _
    by_cases hs : occupation s = m
    · rw [if_pos hs]
      by_cases ht : occupation t = m
      · rw [manifold_to_full_apply_left _ _ _ ht, dif_pos hs]
        by_cases hst : s = t
        · rw [if_pos ⟨hst, ht⟩]
          subst hst
          rw [Matrix.diagonal_apply_eq]
          rfl
        · rw [if_neg (fun hc => hst hc.1),
            Matrix.diagonal_apply_ne _
              (fun hc => hst (congrArg Subtype.val hc))]
      · rw [manifold_to_full_apply_zero_snd _ _ ht,
          if_neg (fun hc => ht hc.2)]
    · rw [manifold_to_full_apply_zero_fst _ _ hs, if_neg hs]
  rw [Finset.sum_congr rfl hterm, Finset.sum_ite_eq (Finset.range 2)
    (occupation s)
    (fun m => if s = t ∧ occupation t = m then (if m = 1 then c else 0) else 0),
    if_pos]
  · by_cases hst : s = t
    · subst hst
      rw [if_pos ⟨rfl, rfl⟩, if_pos rfl]
      rw [occupation_fin1]
      refine if_congr ⟨fun hv => Fin.ext (by simpa using hv), fun hv => ?_⟩
        rfl rfl
      rw [hv]
      rfl
    · rw [if_neg (fun hc => hst hc.1), if_neg hst]
  · rw [Finset.mem_range, occupation_fin1]
    exact (s 0).isLt

theorem C6_allclose_iff {rtol atol c : ℝ} (hat : 0 ≤ atol) (_hrt : 0 ≤ rtol) :
    np_allclose rtol atol
      ((electronic_eigvecs 1 (C6_data c)).transpose * C6H *
        electronic_eigvecs 1 (C6_data c))
      (electronic_eigvals_matrix 1 (C6_data c)) ↔
      |1 - c| ≤ atol + rtol * |c| := by
  rw [C6_eigvecs_eq_one, Matrix.transpose_one, Matrix.one_mul,
    Matrix.mul_one]
  constructor
  · intro h
    have h11 := h ![1] ![1]
    rw [C6H_apply, C6_d_apply] at h11
    simpa using h11
  · intro h s t
    rw [C6H_apply, C6_d_apply]
    rcases fin1_fun_cases s with rfl | rfl <;> rcases fin1_fun_cases t with rfl | rfl
    · simpa using hat
    · have hne : (![0] : Fin 1 → Fin 2) ≠ ![1] := by
        intro hc
        have := congrFun hc 0
        simp at this
      simpa [hne] using hat
    · have hne : (![1] : Fin 1 → Fin 2) ≠ ![0] := by
        intro hc
        have := congrFun hc 0
        simp at this
      simpa [hne] using hat
    · simpa using h

/-- Claim C6 is false about the tolerance: with the single-site Hamiltonian
`diag(0, 1)` and per-manifold data whose manifold-1 eigenvalue is off by
`5e-7`, the source's check `np.allclose(Hd, d)` (relative `1e-5`, absolute
`1e-8`) passes and the eigensystem fields are published, even though
`Vᵀ·H·V` does not equal the embedded diagonal within absolute and relative
tolerance `1e-8` — so no error is raised where the claim requires one. -/
theorem C6_counterexample :
    set_electronic_eigensystem 1 C6H (C6_data (1 + 5e-7)) =
      Except.ok (electronic_eigvecs 1 (C6_data (1 + 5e-7)),
        fun s => electronic_eigvals_matrix 1 (C6_data (1 + 5e-7)) s s) ∧
    ¬ np_allclose 1e-8 1e-8
      ((electronic_eigvecs 1 (C6_data (1 + 5e-7))).transpose * C6H *
        electronic_eigvecs 1 (C6_data (1 + 5e-7)))
      (electronic_eigvals_matrix 1 (C6_data (1 + 5e-7))) := by
  constructor
  · rw [set_electronic_eigensystem, if_pos]
    rw [C6_allclose_iff (by norm_num) (by norm_num),
      show (1 : ℝ) - (1 + 5e-7) = -(5e-7) by ring, abs_neg,
      abs_of_pos (by norm_num), abs_of_pos (by norm_num)]
    norm_num
  · rw [C6_allclose_iff (by norm_num) (by norm_num),
      show (1 : ℝ) - (1 + 5e-7) = -(5e-7) by ring, abs_neg,
      abs_of_pos (by norm_num), abs_of_pos (by norm_num)]
    norm_num

theorem C6_extract_diag (m : ℕ) (hm : m ≤ 1) :
    (C6_data 1 m).v.transpose * extract_manifold 1 m C6H * (C6_data 1 m).v =
      Matrix.diagonal (C6_data 1 m).e := by
  show (1 : Matrix (manifold_basis 1 m) (manifold_basis 1 m) ℝ).transpose *
      extract_manifold 1 m C6H * 1 = _
  rw [Matrix.transpose_one, Matrix.one_mul, Matrix.mul_one]
  ext a b
  have hab : a = b := by
    apply Subtype.ext
    funext i
    fin_cases i
    have ha := a.2
    have hb := b.2
    rw [occupation_fin1] at ha hb
    exact Fin.ext (ha.trans hb.symm)
  subst hab
  rw [Matrix.diagonal_apply_eq]
  show C6H a.1 a.1 = _
  rw [C6H_apply]
  have ha := a.2
  rw [occupation_fin1] at ha
  interval_cases m
  · rw [if_neg]
    · rfl
    · rintro ⟨h1, _⟩
      rw [h1] at ha
      simp at ha
  · have h1 : a.1 0 = 1 := Fin.ext (by simpa using ha)
    rw [if_pos ⟨h1, h1⟩]
    rfl

/-- Witness for claim C6 (amended): with the exact single-site eigensystem
the reconstruction re-diagonalizes exactly and the fields are published;
with a grossly wrong eigenvalue (`1000` instead of `1`) the `allclose`
check fails and the fatal error is raised. -/
theorem C6_witness :
    ((electronic_eigvecs 1 (C6_data 1)).transpose * C6H *
        electronic_eigvecs 1 (C6_data 1) =
      electronic_eigvals_matrix 1 (C6_data 1) ∧
      set_electronic_eigensystem 1 C6H (C6_data 1) =
        Except.ok (electronic_eigvecs 1 (C6_data 1),
          fun s => electronic_eigvals_matrix 1 (C6_data 1) s s)) ∧
    set_electronic_eigensystem 1 C6H (C6_data 1000) =
      Except.error "Diagonalization by manifold failed" := by
  constructor
  · exact (C6_set_electronic_eigensystem_amended 1 [1] [] (C6_data 1)).2.2
      (fun m hm => C6_extract_diag m hm)
  · refine (C6_set_electronic_eigensystem_amended 1 [1] [] (C6_data 1000)).2.1 ?_
    show ¬ np_allclose 1e-5 1e-8
      ((electronic_eigvecs 1 (C6_data 1000)).transpose * C6H *
        electronic_eigvecs 1 (C6_data 1000))
      (electronic_eigvals_matrix 1 (C6_data 1000))
    rw [C6_allclose_iff (by norm_num) (by norm_num),
      show (1 : ℝ) - 1000 = -999 by ring, abs_neg,
      abs_of_pos (by norm_num), abs_of_pos (by norm_num)]
    norm_num

/-! ## Electronic dissipation assembly

Source: `Lindblad_eigenstates.py`, lines 234-243 (optical dephasing),
272-288 (optical decoherence), 295-311 (site-to-site decoherence), 320-332
(site-to-site dephasing), 341-356 (exciton-exciton dephasing), 692-713
(exciton decoherence by manifold) and 758-778
(`set_electronic_dissipation_instructions`).

The per-manifold eigensystem used by `exciton_decoherence` is stored as
numpy arrays ordered by the `np.where` mask enumeration; it is modelled as a
block size `d`, an embedding of `Fin d` into the full basis (the mask
order), eigenvalues and eigenvectors over `Fin d`.  The electronic
eigenvectors and per-manifold eigendata are `np.linalg.eigh` outputs
(external) and enter the model as state fields. -/

/-- Per-manifold eigensystem in mask-enumeration order (the arrays returned
by `get_eigensystem_by_manifold`). -/
structure ManifoldEigArr (n : ℕ) where
  d : ℕ
  emb : Fin d → (Fin n → Fin 2)
  e : Fin d → ℝ
  v : Matrix (Fin d) (Fin d) ℝ

/-- `coherence_to_full` for a single manifold block in mask-enumeration
order: `Ofull[mask_i, mask_j] = O[i, j]`, zeros elsewhere. -/
noncomputable def manifold_to_full_arr {n : ℕ} (md : ManifoldEigArr n)
    (O : Matrix (Fin md.d) (Fin md.d) ℝ) :
    Matrix (Fin n → Fin 2) (Fin n → Fin 2) ℝ :=
  Matrix.of fun s t =>
    ∑ i : Fin md.d, ∑ j : Fin md.d,
      if md.emb i = s ∧ md.emb j = t then O i j else 0

/-- The state fields of `OpenPolymer` consumed by the electronic
dissipation builders. -/
structure OpenPolymerElec (n : ℕ) where
  energies : List ℝ
  kT : ℝ
  optical_dephasing_gamma : ℝ
  optical_decoherence_gamma : ℝ
  site_to_site_dephasing_gamma : ℝ
  site_to_site_decoherence_gamma : ℝ
  exciton_exciton_dephasing_gamma : ℝ
  exciton_decoherence_gamma : ℝ
  electronic_eigenvectors : Matrix (Fin n → Fin 2) (Fin n → Fin 2) ℝ
  manifold_eig : ℕ → ManifoldEigArr n

/-- `optical_dephasing_operator`: the sum of all `sz` operators. -/
noncomputable def optical_dephasing_operator (n : ℕ) :
    Matrix (Fin n → Fin 2) (Fin n → Fin 2) ℝ :=
  ∑ i ∈ Finset.range n, (sz_list ℝ n).getD i 0

/-- `optical_dephasing_instructions`. -/
noncomputable def optical_dephasing_instructions {n : ℕ}
    (s : OpenPolymerElec n) :
    List (Matrix (Fin n → Fin 2) (Fin n → Fin 2) ℝ ×
      Matrix (Fin n → Fin 2) (Fin n → Fin 2) ℝ) :=
  make_Lindblad_instructions s.optical_dephasing_gamma
    (optical_dephasing_operator n)

/-- `optical_decoherence_instructions`: per site, the downward term
(`O.T`, weight `boltzmann(0, e_n).1`) then, unless `np.isclose(bn, 0)`, the
upward term (`O`, weight `boltzmann(0, e_n).2`). -/
noncomputable def optical_decoherence_instructions {n : ℕ}
    (s : OpenPolymerElec n) :
    List (Matrix (Fin n → Fin 2) (Fin n → Fin 2) ℝ ×
      Matrix (Fin n → Fin 2) (Fin n → Fin 2) ℝ) :=
  (List.range s.energies.length).bind fun k =>
    let en := s.energies.getD k 0
    let b := boltzmann_factors s.kT 0 en
    let O := (make_single_operator_list ℝ n (up_op ℝ)).getD k 0
    make_Lindblad_instructions (s.optical_decoherence_gamma * b.1)
        O.transpose ++
      (if np_isclose b.2 0 then []
       else make_Lindblad_instructions (s.optical_decoherence_gamma * b.2) O)

/-- `site_to_site_decoherence_instructions`: per site pair `(a, b)` (with
its exchange operator), Boltzmann-weighted downward and upward terms. -/
noncomputable def site_to_site_decoherence_instructions {n : ℕ}
    (s : OpenPolymerElec n) :
    List (Matrix (Fin n → Fin 2) (Fin n → Fin 2) ℝ ×
      Matrix (Fin n → Fin 2) (Fin n → Fin 2) ℝ) :=
  (combinations2 s.energies.length).enum.bind fun kp =>
    let ea := s.energies.getD kp.2.1 0
    let eb := s.energies.getD kp.2.2 0
    let b := boltzmann_factors s.kT ea eb
    let O := (exchange_list ℝ n).getD kp.1 0
    make_Lindblad_instructions (s.site_to_site_decoherence_gamma * b.1) O ++
      make_Lindblad_instructions (s.site_to_site_decoherence_gamma * b.2)
        O.transpose

/-- `site_to_site_dephasing_operator_list`: `sz_i - sz_j` per pair. -/
noncomputable def site_to_site_dephasing_operator_list (n : ℕ) :
    List (Matrix (Fin n → Fin 2) (Fin n → Fin 2) ℝ) :=
  (combinations2 n).map fun ij =>
    (sz_list ℝ n).getD ij.1 0 - (sz_list ℝ n).getD ij.2 0

/-- `all_site_dephasing_instructions`. -/
noncomputable def all_site_dephasing_instructions {n : ℕ}
    (s : OpenPolymerElec n) :
    List (Matrix (Fin n → Fin 2) (Fin n → Fin 2) ℝ ×
      Matrix (Fin n → Fin 2) (Fin n → Fin 2) ℝ) :=
  (site_to_site_dephasing_operator_list n).bind fun O =>
    make_Lindblad_instructions s.site_to_site_dephasing_gamma O

/-- `exciton_exciton_dephasing_operator_list`: site dephasing operators
conjugated into the electronic eigenbasis. -/
noncomputable def exciton_exciton_dephasing_operator_list {n : ℕ}
    (s : OpenPolymerElec n) :
    List (Matrix (Fin n → Fin 2) (Fin n → Fin 2) ℝ) :=
  (combinations2 n).map fun ij =>
    s.electronic_eigenvectors * (sz_list ℝ n).getD ij.1 0 *
        s.electronic_eigenvectors.transpose -
      s.electronic_eigenvectors * (sz_list ℝ n).getD ij.2 0 *
        s.electronic_eigenvectors.transpose

/-- `all_exciton_dephasing_instructions` (rate divided by `2n`). -/
noncomputable def all_exciton_dephasing_instructions {n : ℕ}
    (s : OpenPolymerElec n) :
    List (Matrix (Fin n → Fin 2) (Fin n → Fin 2) ℝ ×
      Matrix (Fin n → Fin 2) (Fin n → Fin 2) ℝ) :=
  (exciton_exciton_dephasing_operator_list s).bind fun O =>
    make_Lindblad_instructions
      (s.exciton_exciton_dephasing_gamma / (2 * n)) O

/-- `exciton_decoherence_instructions_by_manifold` with
`full_space = True`: per pair of eigenstate indices in one manifold block, a
Boltzmann-weighted pair of Lindblad instruction triples for the embedded
eigenstate-exchange operator. -/
noncomputable def exciton_decoherence_instructions_by_manifold {n : ℕ}
    (s : OpenPolymerElec n) (manifold_num : ℕ) :
    List (Matrix (Fin n → Fin 2) (Fin n → Fin 2) ℝ ×
      Matrix (Fin n → Fin 2) (Fin n → Fin 2) ℝ) :=
  let md := s.manifold_eig manifold_num
  (combinations2 md.d).bind fun ab =>
    let ea := if h : ab.1 < md.d then md.e ⟨ab.1, h⟩ else 0
    let eb := if h : ab.2 < md.d then md.e ⟨ab.2, h⟩ else 0
    let b := boltzmann_factors s.kT ea eb
    let exchange : Matrix (Fin md.d) (Fin md.d) ℝ :=
      Matrix.of fun x y =>
        if (x : ℕ) = ab.1 ∧ (y : ℕ) = ab.2 then 1 else 0
    let O := manifold_to_full_arr md (md.v * exchange * md.v.transpose)
    make_Lindblad_instructions (s.exciton_decoherence_gamma * b.1) O ++
      make_Lindblad_instructions (s.exciton_decoherence_gamma * b.2)
        O.transpose

/-- The loop `instructions_by_manifold(1); for i in 2..num_sites: += ...`. -/
noncomputable def exciton_decoherence_instructions_all {n : ℕ}
    (s : OpenPolymerElec n) :
    List (Matrix (Fin n → Fin 2) (Fin n → Fin 2) ℝ ×
      Matrix (Fin n → Fin 2) (Fin n → Fin 2) ℝ) :=
  (List.range n).bind fun k =>
    exciton_decoherence_instructions_by_manifold s (k + 1)

/-- Embedding of `set_electronic_dissipation_instructions`: optical
dephasing unconditionally, then each other family guarded by its rate being
nonzero.  (The two same-type warnings emitted by the source do not affect
the list.) -/
noncomputable def set_electronic_dissipation_instructions {n : ℕ}
    (s : OpenPolymerElec n) :
    List (Matrix (Fin n → Fin 2) (Fin n → Fin 2) ℝ ×
      Matrix (Fin n → Fin 2) (Fin n → Fin 2) ℝ) :=
  optical_dephasing_instructions s ++
    (if s.site_to_site_dephasing_gamma ≠ 0 then
      all_site_dephasing_instructions s else []) ++
    (if s.site_to_site_decoherence_gamma ≠ 0 then
      site_to_site_decoherence_instructions s else []) ++
    (if s.exciton_exciton_dephasing_gamma ≠ 0 then
      all_exciton_dephasing_instructions s else []) ++
    (if s.exciton_decoherence_gamma ≠ 0 then
      exciton_decoherence_instructions_all s else []) ++
    (if s.optical_decoherence_gamma ≠ 0 then
      optical_decoherence_instructions s else [])

/-- A single-site state with every dissipation rate set to exactly `0`. -/
noncomputable def C7s0 : OpenPolymerElec 1 where
  energies := [0]
  kT := 1
  optical_dephasing_gamma := 0
  optical_decoherence_gamma := 0
  site_to_site_dephasing_gamma := 0
  site_to_site_decoherence_gamma := 0
  exciton_exciton_dephasing_gamma := 0
  exciton_decoherence_gamma := 0
  electronic_eigenvectors := 1
  manifold_eig := fun _ => ⟨0, Fin.elim0, Fin.elim0, 0⟩

/-- Claim C7 is false for the optical-dephasing family: with every rate set
to exactly `0`, the assembled electronic dissipation instruction list is
not empty — the optical dephasing builder is invoked unconditionally and
contributes its three (null) instructions. -/
theorem C7_counterexample :
    C7s0.optical_dephasing_gamma = 0 ∧
    set_electronic_dissipation_instructions C7s0 =
      optical_dephasing_instructions C7s0 ∧
    (optical_dephasing_instructions C7s0).length = 3 := by
  refine ⟨rfl, ?_, rfl⟩
  rw [set_electronic_dissipation_instructions]
  rw [if_neg (by norm_num [C7s0]), if_neg (by norm_num [C7s0]),
    if_neg (by norm_num [C7s0]), if_neg (by norm_num [C7s0]),
    if_neg (by norm_num [C7s0])]
  simp

/-- Claim C7 (amended): every dissipation family except optical dephasing
is skipped entirely when its rate is exactly `0` (each zero rate removes
exactly that family's segment from the assembled list); optical dephasing
is included unconditionally — even at rate `0` the assembled list begins
with its three instructions. -/
theorem C7_dissipation_assembly_amended {n : ℕ} (s : OpenPolymerElec n) :
    (s.site_to_site_dephasing_gamma = 0 →
      set_electronic_dissipation_instructions s =
        optical_dephasing_instructions s ++
          (if s.site_to_site_decoherence_gamma ≠ 0 then
            site_to_site_decoherence_instructions s else []) ++
          (if s.exciton_exciton_dephasing_gamma ≠ 0 then
            all_exciton_dephasing_instructions s else []) ++
          (if s.exciton_decoherence_gamma ≠ 0 then
            exciton_decoherence_instructions_all s else []) ++
          (if s.optical_decoherence_gamma ≠ 0 then
            optical_decoherence_instructions s else [])) ∧
    (s.site_to_site_decoherence_gamma = 0 →
      set_electronic_dissipation_instructions s =
        optical_dephasing_instructions s ++
          (if s.site_to_site_dephasing_gamma ≠ 0 then
            all_site_dephasing_instructions s else []) ++
          (if s.exciton_exciton_dephasing_gamma ≠ 0 then
            all_exciton_dephasing_instructions s else []) ++
          (if s.exciton_decoherence_gamma ≠ 0 then
            exciton_decoherence_instructions_all s else []) ++
          (if s.optical_decoherence_gamma ≠ 0 then
            optical_decoherence_instructions s else [])) ∧
    (s.exciton_exciton_dephasing_gamma = 0 →
      set_electronic_dissipation_instructions s =
        optical_dephasing_instructions s ++
          (if s.site_to_site_dephasing_gamma ≠ 0 then
            all_site_dephasing_instructions s else []) ++
          (if s.site_to_site_decoherence_gamma ≠ 0 then
            site_to_site_decoherence_instructions s else []) ++
          (if s.exciton_decoherence_gamma ≠ 0 then
            exciton_decoherence_instructions_all s else []) ++
          (if s.optical_decoherence_gamma ≠ 0 then
            optical_decoherence_instructions s else [])) ∧
    (s.exciton_decoherence_gamma = 0 →
      set_electronic_dissipation_instructions s =
        optical_dephasing_instructions s ++
          (if s.site_to_site_dephasing_gamma ≠ 0 then
            all_site_dephasing_instructions s else []) ++
          (if s.site_to_site_decoherence_gamma ≠ 0 then
            site_to_site_decoherence_instructions s else []) ++
          (if s.exciton_exciton_dephasing_gamma ≠ 0 then
            all_exciton_dephasing_instructions s else []) ++
          (if s.optical_decoherence_gamma ≠ 0 then
            optical_decoherence_instructions s else [])) ∧
    (s.optical_decoherence_gamma = 0 →
      set_electronic_dissipation_instructions s =
        optical_dephasing_instructions s ++
          (if s.site_to_site_dephasing_gamma ≠ 0 then
            all_site_dephasing_instructions s else []) ++
          (if s.site_to_site_decoherence_gamma ≠ 0 then
            site_to_site_decoherence_instructions s else []) ++
          (if s.exciton_exciton_dephasing_gamma ≠ 0 then
            all_exciton_dephasing_instructions s else []) ++
          (if s.exciton_decoherence_gamma ≠ 0 then
            exciton_decoherence_instructions_all s else [])) ∧
    ((set_electronic_dissipation_instructions s).take 3 =
      optical_dephasing_instructions s ∧
      (optical_dephasing_instructions s).length = 3) := by
  refine ⟨fun h => ?_, fun h => ?_, fun h => ?_, fun h => ?_, fun h => ?_,
    ?_, rfl⟩
  · rw [set_electronic_dissipation_instructions, if_neg (by simp [h])]
    simp [List.append_assoc]
  · rw [set_electronic_dissipation_instructions]
    rw [if_neg (show ¬ s.site_to_site_decoherence_gamma ≠ 0 by simp [h])]
    simp [List.append_assoc]
  · rw [set_electronic_dissipation_instructions]
    rw [if_neg (show ¬ s.exciton_exciton_dephasing_gamma ≠ 0 by simp [h])]
    simp [List.append_assoc]
  · rw [set_electronic_dissipation_instructions]
    rw [if_neg (show ¬ s.exciton_decoherence_gamma ≠ 0 by simp [h])]
    simp [List.append_assoc]
  · rw [set_electronic_dissipation_instructions]
    rw [if_neg (show ¬ s.optical_decoherence_gamma ≠ 0 by simp [h])]
    simp [List.append_assoc]
  · rw [set_electronic_dissipation_instructions]
    have h3 : (optical_dephasing_instructions s).length = 3 := rfl
    simp only [List.append_assoc]
    rw [← h3, List.take_left]

/-- Witness for claim C7 (amended): at the all-zero-rate single-site state,
each zero-rate hypothesis discharges by `rfl` and the assembled list is
exactly the three unconditional optical-dephasing instructions. -/
theorem C7_witness :
    set_electronic_dissipation_instructions C7s0 =
      optical_dephasing_instructions C7s0 ++
        (if C7s0.site_to_site_decoherence_gamma ≠ 0 then
          site_to_site_decoherence_instructions C7s0 else []) ++
        (if C7s0.exciton_exciton_dephasing_gamma ≠ 0 then
          all_exciton_dephasing_instructions C7s0 else []) ++
        (if C7s0.exciton_decoherence_gamma ≠ 0 then
          exciton_decoherence_instructions_all C7s0 else []) ++
        (if C7s0.optical_decoherence_gamma ≠ 0 then
          optical_decoherence_instructions C7s0 else []) ∧
    (set_electronic_dissipation_instructions C7s0).take 3 =
      optical_dephasing_instructions C7s0 := by
  obtain ⟨h1, _, _, _, _, h6, _⟩ := C7_dissipation_assembly_amended C7s0
  exact ⟨h1 rfl, h6⟩

/-! ## Eigensystem solver: zero-eigenvalue trace normalization

Source: `Lindblad_eigenstates.py`, lines 431-452 (`eigfun`).  The numpy
`np.linalg.eig` output is external; the model describes the per-column
post-processing that `eigfun` applies to each (already rounded and sorted)
eigenvalue/eigenvector pair: the sign convention, and the trace
normalization of eigenvectors whose rounded eigenvalue is exactly `0`.
Complex scalars are `ℂ`. -/

/-- `np.argmax(np.abs(v))`: the first index of maximal modulus (`foldl`
with a strict comparison keeps the earliest maximum, as numpy does). -/
noncomputable def np_argmax_abs {N : ℕ} [NeZero N] (v : Fin N → ℂ) :
    Fin N :=
  (List.finRange N).foldl
    (fun best i =>
      if Complex.abs (v best) < Complex.abs (v i) then i else best)
    ⟨0, Nat.pos_of_ne_zero (NeZero.ne N)⟩

/-- The sign convention of `eigfun`: negate the column if the real part of
its largest-modulus component is negative. -/
noncomputable def sign_flip {N : ℕ} [NeZero N] (v : Fin N → ℂ) :
    Fin N → ℂ :=
  if (v (np_argmax_abs v)).re < 0 then fun j => -v j else v

/-- The trace of `v.reshape(shape, shape)` with
`shape = int(np.sqrt(v.size))`: sum of the entries at the row-major
diagonal positions `k*shape + k`. -/
noncomputable def reshape_trace_vec {N : ℕ} (v : Fin N → ℂ) : ℂ :=
  ∑ k ∈ Finset.range (Nat.sqrt N),
    if h : k * Nat.sqrt N + k < N then v ⟨k * Nat.sqrt N + k, h⟩ else 0

open Classical in
/-- The per-column post-processing of `eigfun` (lines 438-451): sign
convention, then, when the rounded eigenvalue equals `0`, renormalization
by the component sum (`populations_only`) or by the reshaped trace. -/
noncomputable def eigfun_normalize_column {N : ℕ} [NeZero N]
    (populations_only : Bool) (eigval : ℂ) (v : Fin N → ℂ) : Fin N → ℂ :=
  let v1 := sign_flip v
  if eigval = 0 then
    if populations_only then
      let trace_norm := ∑ j, v1 j
      fun j => v1 j / trace_norm
    else
      let trace_norm := reshape_trace_vec v1
      fun j => v1 j / trace_norm
  else v1

/-- Claim C8 (amended): for a rounded eigenvalue of exactly `0`, provided
the pre-normalization trace (component sum in the `populations_only` case)
is nonzero, the returned eigenvector has reshaped trace exactly `1`
(respectively component sum exactly `1`); eigenvectors of nonzero
eigenvalues are returned sign-fixed but not trace-normalized. -/
theorem C8_eigfun_zero_eigenvalue_normalization {N : ℕ} [NeZero N]
    (eigval : ℂ) (v : Fin N → ℂ) :
    (eigval = 0 → reshape_trace_vec (sign_flip v) ≠ 0 →
      reshape_trace_vec (eigfun_normalize_column false eigval v) = 1) ∧
    (eigval = 0 → (∑ j, sign_flip v j) ≠ 0 →
      (∑ j, eigfun_normalize_column true eigval v j) = 1) ∧
    (eigval ≠ 0 →
      eigfun_normalize_column false eigval v = sign_flip v ∧
      eigfun_normalize_column true eigval v = sign_flip v) := by
  refine ⟨fun h0 ht => ?_, fun h0 hs => ?_, fun hne => ⟨?_, ?_⟩⟩
  · rw [eigfun_normalize_column, if_pos h0]
    show reshape_trace_vec
      (fun j => sign_flip v j / reshape_trace_vec (sign_flip v)) = 1
    rw [reshape_trace_vec]
    have hsplit : ∀ k ∈ Finset.range (Nat.sqrt N),
        (if h : k * Nat.sqrt N + k < N then
          sign_flip v ⟨k * Nat.sqrt N + k, h⟩ / reshape_trace_vec (sign_flip v)
        else 0) =
        (if h : k * Nat.sqrt N + k < N then
          sign_flip v ⟨k * Nat.sqrt N + k, h⟩ else 0) /
          reshape_trace_vec (sign_flip v) := by
      intro k _
      by_cases h : k * Nat.sqrt N + k < N
      · rw [dif_pos h, dif_pos h]
      · rw [dif_neg h, dif_neg h, zero_div]
    rw [Finset.sum_congr rfl hsplit, ← Finset.sum_div, ← reshape_trace_vec,
      div_self ht]
  · rw [eigfun_normalize_column, if_pos h0]
    show (∑ j, sign_flip v j / (∑ j, sign_flip v j)) = 1
    rw [← Finset.sum_div, div_self hs]
  · rw [eigfun_normalize_column, if_neg hne]
  · rw [eigfun_normalize_column, if_neg hne]

/-- The concrete kernel vector used against claim C8: the vectorized `2x2`
matrix `e_01`, a legitimate `np.linalg.eig` output column (e.g. for the
zero Liouvillian), whose reshaped trace is `0`. -/
noncomputable def C8v : Fin 4 → ℂ := ![0, 1, 0, 0]

/-- Claim C8 is false without a nonzero-trace proviso: the eigenvector
`(0, 1, 0, 0)` of eigenvalue `0` reshapes to the traceless matrix `e_01`,
so the renormalization divides by zero and the returned vector's reshaped
trace is not `1`. -/
theorem C8_counterexample :
    reshape_trace_vec (eigfun_normalize_column false 0 C8v) ≠ 1 := by
  have hnn : ∀ i, 0 ≤ (C8v i).re := by
    intro i
    fin_cases i <;> norm_num [C8v]
  have hflip : sign_flip C8v = C8v := by
    rw [sign_flip, if_neg (not_lt.mpr (hnn _))]
  have htr : reshape_trace_vec C8v = 0 := by
    rw [reshape_trace_vec, show Nat.sqrt 4 = 2 by norm_num,
      Finset.sum_range_succ, Finset.sum_range_succ, Finset.sum_range_zero,
      dif_pos (by norm_num : 0 * 2 + 0 < 4),
      dif_pos (by norm_num : 1 * 2 + 1 < 4)]
    norm_num [C8v, show ((⟨0 * 2 + 0, by norm_num⟩ : Fin 4)) = 0 from rfl,
      show ((⟨1 * 2 + 1, by norm_num⟩ : Fin 4)) = 3 from rfl]
  have hresult : eigfun_normalize_column false 0 C8v =
      fun j => C8v j / reshape_trace_vec C8v := by
    rw [eigfun_normalize_column, if_pos rfl]
    show (fun j => sign_flip C8v j / reshape_trace_vec (sign_flip C8v)) = _
    rw [hflip]
  rw [hresult, htr]
  have hz : reshape_trace_vec (fun j : Fin 4 => C8v j / 0) = 0 := by
    rw [reshape_trace_vec]
    refine Finset.sum_eq_zero fun k _ => ?_
    by_cases h : k * Nat.sqrt 4 + k < 4
    · rw [dif_pos h, div_zero]
    · rw [dif_neg h]
  rw [hz]
  norm_num

/-- The concrete trace-2 vector used in the witness for claim C8:
the vectorized `2x2` identity matrix. -/
noncomputable def C8w : Fin 4 → ℂ := ![1, 0, 0, 1]

/-- Witness for claim C8 (amended): for the vectorized identity (trace `2`,
component sum `2`) with eigenvalue `0`, both normalizations yield exactly
`1`; with eigenvalue `1` the vector is returned sign-fixed only. -/
theorem C8_witness :
    reshape_trace_vec (eigfun_normalize_column false 0 C8w) = 1 ∧
    (∑ j, eigfun_normalize_column true 0 C8w j) = 1 ∧
    eigfun_normalize_column false 1 C8w = sign_flip C8w := by
  have hnn : ∀ i, 0 ≤ (C8w i).re := by
    intro i
    fin_cases i <;> norm_num [C8w]
  have hflip : sign_flip C8w = C8w := by
    rw [sign_flip, if_neg (not_lt.mpr (hnn _))]
  have htr : reshape_trace_vec C8w = 2 := by
    rw [reshape_trace_vec, show Nat.sqrt 4 = 2 by norm_num,
      Finset.sum_range_succ, Finset.sum_range_succ, Finset.sum_range_zero,
      dif_pos (by norm_num : 0 * 2 + 0 < 4),
      dif_pos (by norm_num : 1 * 2 + 1 < 4)]
    norm_num [C8w, show ((⟨0 * 2 + 0, by norm_num⟩ : Fin 4)) = 0 from rfl,
      show ((⟨1 * 2 + 1, by norm_num⟩ : Fin 4)) = 3 from rfl]
  have hsum : (∑ j, sign_flip C8w j) = 2 := by
    rw [hflip]
    rw [Fin.sum_univ_four]
    norm_num [C8w]
  refine ⟨(C8_eigfun_zero_eigenvalue_normalization 0 C8w).1 rfl ?_,
    (C8_eigfun_zero_eigenvalue_normalization 0 C8w).2.1 rfl ?_,
    ((C8_eigfun_zero_eigenvalue_normalization 1 C8w).2.2 (by norm_num)).1⟩
  · rw [hflip, htr]
    norm_num
  · rw [hsum]
    norm_num

/-! ### C10: manifold-pair dictionary keys `str(k)+str(l)` -/

/-- The dictionary key built by `set_L_by_manifold`, `set_eigensystem_by_manifold`
and `eigfun2` for the manifold pair `(k, l)`: Python `str(ket_manifold)+str(bra_manifold)`,
i.e. decimal-string concatenation. -/
def manifold_key (k l : ℕ) : String := toString k ++ toString l

/-- A natural number `≤ 9` prints as the single digit character `Nat.digitChar`. -/
theorem repr_single_digit (k : ℕ) (hk : k ≤ 9) :
    (toString k).data = [Nat.digitChar k] := by
  interval_cases k <;> rfl

/-- `Nat.digitChar` is injective on `0..9`. -/
theorem digitChar_inj_le_nine (a b : ℕ) (ha : a ≤ 9) (hb : b ≤ 9)
    (h : Nat.digitChar a = Nat.digitChar b) : a = b := by
  interval_cases a <;> interval_cases b <;> revert h <;> decide

/-- C10: the string keys `str(k)+str(l)` uniquely determine the manifold pair `(k, l)`
when all manifold numbers are single-digit (`0..9`), but the key map is not injective
in general: the distinct pairs `(1, 11)` and `(11, 1)` both yield the key `"111"`. -/
theorem C10_manifold_key_injectivity :
    (∀ k l k' l' : ℕ, k ≤ 9 → l ≤ 9 → k' ≤ 9 → l' ≤ 9 →
      manifold_key k l = manifold_key k' l' → k = k' ∧ l = l') ∧
    (manifold_key 1 11 = manifold_key 11 1 ∧ ((1, 11) : ℕ × ℕ) ≠ (11, 1)) := by
  constructor
  · intro k l k' l' hk hl hk' hl' h
    rw [manifold_key, manifold_key] at h
    have hdata := congrArg String.data h
    rw [String.data_append, String.data_append, repr_single_digit k hk,
      repr_single_digit k' hk', repr_single_digit l hl, repr_single_digit l' hl'] at hdata
    simp only [List.cons_append, List.nil_append, List.cons.injEq, and_true] at hdata
    exact ⟨digitChar_inj_le_nine _ _ hk hk' hdata.1, digitChar_inj_le_nine _ _ hl hl' hdata.2⟩
  · exact ⟨rfl, by decide⟩

/-- C10 witness: the single-digit uniqueness applied at the concrete pair `(3, 7)`,
and the concrete two-digit collision. -/
theorem C10_witness :
    ((3 : ℕ) = 3 ∧ (7 : ℕ) = 7) ∧ manifold_key 1 11 = manifold_key 11 1 :=
  ⟨C10_manifold_key_injectivity.1 3 7 3 7 (by norm_num) (by norm_num) (by norm_num)
    (by norm_num) rfl, C10_manifold_key_injectivity.2.1⟩
